import Mathlib

/-!
Verification development for the `bitboard` Go repository.

The repository consists of:
  * package `util` — bit primitives (`SetBit`, `ClearBit`, `ToggleBit`,
    `GetBit`, `IsBitSet`, `Union`, `PopCount`) and coordinate conversions
    (`AlgebraicToCartesian`, `AlgebraicToBit`, `BitToCartesian`,
    `CartesianToAlgebraic`, `CartesianToBit`);
  * package `bitboard` — the same primitives plus 8x8 flip/rotate
    transforms (`FlipVertical`, `FlipHorizontal`, `FlipDiagonalA1H8`,
    `Rotate90`, `Rotate180`, `Rotate270`) and the `Bitboard` aggregate
    (`New`, game presets, `GetBitmapIndex`, `PlacePieceBit`,
    `RemovePieceBit`, `MovePieceBit`, ...);
  * package `board64` — an older variant whose `PopCount` and bit
    primitives are textually identical to `util`.

Shallow embedding conventions:
  * Go `uint64` values are `Nat` together with the invariant `< 2 ^ 64`;
    every operation that can exceed 64 bits (left shifts, sums,
    wrapping subtraction) is reduced `% wsize` exactly where the Go
    semantics wraps.
  * Go `int` values are `Int` (Go ints are 64-bit signed; where that
    range matters it appears as an explicit hypothesis).
  * Go `uint(p)` conversion of an int is reduction mod `2 ^ 64`
    (`goUint`).  Go shifts with a count `≥ 64` yield `0`, which the
    embedding `(1 <<< goUint p) % wsize` reproduces.
  * Go strings indexed by `p[0]`, `p[1]` are modelled as their byte
    sequences (`List Nat`, each `< 256`).
  * Functions that are textually duplicated across the three packages
    are defined once (in `util`).
-/

set_option maxHeartbeats 1600000
set_option maxRecDepth 16000

namespace BB

/-- Size of the Go `uint64` type: `2 ^ 64`. -/
def wsize : Nat := 2 ^ 64

theorem wsize_eq : wsize = 2 ^ 64 := rfl

theorem wsize_pos : 0 < wsize := by decide

/-- Go conversion `uint(p)` of a signed integer: reduction mod `2 ^ 64`
(negative values wrap to huge positive shift counts). -/
def goUint (p : Int) : Nat := (p % (wsize : Int)).toNat

namespace util

/-- `SetBit` sets (sets to 1) the bit at position `p`.
Go: `mask = 1 << uint(p); *i |= mask`. -/
def SetBit (i : Nat) (p : Int) : Nat := i ||| ((1 <<< goUint p) % wsize)

/-- `ClearBit` clears (sets to 0) the bit at position `p`.
Go: `mask = ^(1 << uint(p)); *i &= mask`; the uint64 complement `^m`
is `m ^^^ (2 ^ 64 - 1)`. -/
def ClearBit (i : Nat) (p : Int) : Nat :=
  i &&& (((1 <<< goUint p) % wsize) ^^^ (wsize - 1))

/-- `ToggleBit` toggles the value of the bit at position `p`.
Go: `mask = 1 << uint(p); *i ^= mask`. -/
def ToggleBit (i : Nat) (p : Int) : Nat := i ^^^ ((1 <<< goUint p) % wsize)

/-- `GetBit` returns the value of the bit at position `p`.
Go: `return int((*i >> uint(p)) & 1)`. -/
def GetBit (i : Nat) (p : Int) : Nat := (i >>> goUint p) &&& 1

/-- `IsBitSet`. Go: `mask = 1 << uint64(p); return (i & mask) != 0`. -/
def IsBitSet (i : Nat) (p : Int) : Bool := (i &&& ((1 <<< goUint p) % wsize)) != 0

/-- `Union` calculates the union of integers.
Go: variadic loop `u = u | v` starting from the zero value. -/
def Union (l : List Nat) : Nat := l.foldl (fun u v => u ||| v) 0

/-- `PopCount` calculates the population count (Hamming weight) of an
integer using a divide-and-conquer approach.  Identical copies live in
packages `util`, `bitboard` and `board64`.
Go:
  `i -= (i >> 1) & mask1` (wrapping uint64 subtraction, modelled as
  adding the additive complement mod `2 ^ 64`),
  `i = (i & mask2) + ((i >> 2) & mask2)`,
  `i = (i + (i >> 4)) & mask4`,
  `i += i >> 8; i += i >> 16; i += i >> 32`,
  `return int(i & 0x7f)`. -/
def PopCount (i : Nat) : Nat :=
  let mask1 : Nat := 0x5555555555555555
  let mask2 : Nat := 0x3333333333333333
  let mask4 : Nat := 0x0f0f0f0f0f0f0f0f
  let i1 := (i + (wsize - ((i >>> 1) &&& mask1))) % wsize
  let i2 := ((i1 &&& mask2) + ((i1 >>> 2) &&& mask2)) % wsize
  let i3 := (((i2 + (i2 >>> 4)) % wsize) &&& mask4)
  let i4 := (i3 + (i3 >>> 8)) % wsize
  let i5 := (i4 + (i4 >>> 16)) % wsize
  let i6 := (i5 + (i5 >>> 32)) % wsize
  i6 &&& 0x7f

/-- The fixed algebraic-file symbol table `{"a", ..., "h"}`, as ASCII
byte values 97..104. -/
def algSymbols : List Nat := [97, 98, 99, 100, 101, 102, 103, 104]

/-- `AlgebraicToCartesian` converts coordinates in algebraic notation to
Cartesian coordinates.  The Go function reads exactly the first two bytes
`p[0]`, `p[1]` of the string, so the model takes those two bytes.
Go:
  `x` starts at the zero value and a loop over the symbol table sets
  `x = i` whenever `string(p[0]) == symbols[i]` (so an unmatched byte
  leaves `x = 0`);
  `y, _ := strconv.Atoi(string(p[1]))` discards the conversion error,
  leaving `y = 0` when `p[1]` is not a decimal digit;
  returns `(x, y-1)`. -/
def AlgebraicToCartesian (p0 p1 : Nat) (files : Int) : Int × Int :=
  let x : Int :=
    (algSymbols.enum).foldl (fun acc iv => if p0 = iv.2 then (iv.1 : Int) else acc) 0
  let y : Int := if 48 ≤ p1 ∧ p1 ≤ 57 then (p1 : Int) - 48 else 0
  (x, y - 1)

/-- `CartesianToBit` converts Cartesian coordinates to an integer bit
position.  Go: `bit := y*files + x`. -/
def CartesianToBit (x y files : Int) : Int := y * files + x

/-- `BitToCartesian` converts an integer bit position to Cartesian
coordinates.  Go: `x := p % files; y := p / files` — Go `%` and `/` on
ints truncate toward zero, i.e. `Int.tmod` / `Int.tdiv`. -/
def BitToCartesian (p files : Int) : Int × Int := (Int.tmod p files, Int.tdiv p files)

/-- Decimal ASCII bytes of a natural number (the bytes `fmt.Sprintf`
produces for it). -/
def natDecBytes (n : Nat) : List Nat := (Nat.toDigits 10 n).map Char.toNat

/-- Decimal ASCII bytes of an integer; 45 is the minus sign. -/
def intDecBytes (n : Int) : List Nat :=
  if n < 0 then 45 :: natDecBytes (-n).toNat else natDecBytes n.toNat

/-- `CartesianToAlgebraic` converts Cartesian coordinates to algebraic
notation; the produced Go string is modelled as its byte sequence.
Go: `fmt.Sprintf("%v%v", symbols[x], y+1)` — one symbol byte followed by
the decimal digits of `y+1`. -/
def CartesianToAlgebraic (x y files : Int) : List Nat :=
  algSymbols.getD x.toNat 0 :: intDecBytes (y + 1)

/-- `AlgebraicToBit` converts algebraic notation to a bit position. -/
def AlgebraicToBit (p0 p1 : Nat) (files : Int) : Int :=
  let xy := AlgebraicToCartesian p0 p1 files
  CartesianToBit xy.1 xy.2 files

end util

namespace bitboard

/-- `FlipVertical` flips a bitboard vertically about the centre ranks.
Go:
  `i = ((i >> 8) & k1) | ((i & k1) << 8)`,
  `i = ((i >> 16) & k2) | ((i & k2) << 16)`,
  `i = (i >> 32) | (i << 32)` — left shifts wrap mod `2 ^ 64`. -/
def FlipVertical (i : Nat) : Nat :=
  let k1 : Nat := 0x00FF00FF00FF00FF
  let k2 : Nat := 0x0000FFFF0000FFFF
  let i1 := ((i >>> 8) &&& k1) ||| (((i &&& k1) <<< 8) % wsize)
  let i2 := ((i1 >>> 16) &&& k2) ||| (((i1 &&& k2) <<< 16) % wsize)
  (i2 >>> 32) ||| ((i2 <<< 32) % wsize)

/-- `FlipHorizontal` flips a bitboard horizontally about the centre files.
Go:
  `i = ((i >> 1) & k1) + 2*(i & k1)`,
  `i = ((i >> 2) & k2) + 4*(i & k2)`,
  `i = ((i >> 4) & k4) + 16*(i & k4)` — uint64 sums wrap mod `2 ^ 64`. -/
def FlipHorizontal (i : Nat) : Nat :=
  let k1 : Nat := 0x5555555555555555
  let k2 : Nat := 0x3333333333333333
  let k4 : Nat := 0x0f0f0f0f0f0f0f0f
  let i1 := (((i >>> 1) &&& k1) + 2 * (i &&& k1)) % wsize
  let i2 := (((i1 >>> 2) &&& k2) + 4 * (i1 &&& k2)) % wsize
  (((i2 >>> 4) &&& k4) + 16 * (i2 &&& k4)) % wsize

/-- `FlipDiagonalA1H8` flips a bitboard about the diagonal A1-H8.
Go (three delta swaps):
  `t = k4 & (i ^ (i << 28)); i ^= t ^ (t >> 28)`,
  `t = k2 & (i ^ (i << 14)); i ^= t ^ (t >> 14)`,
  `t = k1 & (i ^ (i << 7));  i ^= t ^ (t >> 7)`. -/
def FlipDiagonalA1H8 (i : Nat) : Nat :=
  let k1 : Nat := 0x5500550055005500
  let k2 : Nat := 0x3333000033330000
  let k4 : Nat := 0x0f0f0f0f00000000
  let t1 := k4 &&& (i ^^^ ((i <<< 28) % wsize))
  let i1 := i ^^^ (t1 ^^^ (t1 >>> 28))
  let t2 := k2 &&& (i1 ^^^ ((i1 <<< 14) % wsize))
  let i2 := i1 ^^^ (t2 ^^^ (t2 >>> 14))
  let t3 := k1 &&& (i2 ^^^ ((i2 <<< 7) % wsize))
  i2 ^^^ (t3 ^^^ (t3 >>> 7))

/-- `Rotate180` rotates a bitboard by 180 degrees. -/
def Rotate180 (i : Nat) : Nat := FlipHorizontal (FlipVertical i)

/-- `Rotate90` rotates a bitboard by 90 degrees (clockwise). -/
def Rotate90 (i : Nat) : Nat := FlipVertical (FlipDiagonalA1H8 i)

/-- `Rotate270` rotates a bitboard by 270 degrees. -/
def Rotate270 (i : Nat) : Nat := FlipDiagonalA1H8 (FlipVertical i)

/-- A `Bitboard` represents game state (src/bitboard.go): parallel
per-category bitmaps and symbols, the occupancy union, and the board
dimensions. -/
structure Bitboard where
  Bitmaps : List Nat
  Symbols : List String
  Occupied : Nat
  Ranks : Int
  Files : Int
deriving DecidableEq

/-- `GetBitmapIndex` returns the array index of the bitmap including a
particular square.
Go: if `util.GetBit(&b.Occupied, p) == 0` return `-1`; otherwise scan
`b.Bitmaps` in order and return the first index whose bitmap has the bit
set, or `-1` if none does. -/
def GetBitmapIndex (b : Bitboard) (p : Int) : Int :=
  if util.GetBit b.Occupied p = 0 then -1
  else
    match b.Bitmaps.findIdx? (fun m => util.GetBit m p != 0) with
    | some i => (i : Int)
    | none => -1

/-- `PlacePieceBit` places the piece at bit position `p`: sets the bit in
`Occupied` and in bitmap `m`.  (Go indexes `b.Bitmaps[m]`; the embedding
uses `List.set` / `List.getD`, which agree with Go for the in-range `m`
used by every claim.) -/
def PlacePieceBit (b : Bitboard) (m : Nat) (p : Int) : Bitboard :=
  { b with Occupied := util.SetBit b.Occupied p,
           Bitmaps := b.Bitmaps.set m (util.SetBit (b.Bitmaps.getD m 0) p) }

/-- `RemovePieceBit` removes the piece at bit position `p`: clears the bit
in `Occupied` and in bitmap `m`. -/
def RemovePieceBit (b : Bitboard) (m : Nat) (p : Int) : Bitboard :=
  { b with Occupied := util.ClearBit b.Occupied p,
           Bitmaps := b.Bitmaps.set m (util.ClearBit (b.Bitmaps.getD m 0) p) }

/-- `MovePieceBit` moves a piece from bit position `p1` to `p2`:
`RemovePieceBit` then `PlacePieceBit`. -/
def MovePieceBit (b : Bitboard) (m : Nat) (p1 p2 : Int) : Bitboard :=
  PlacePieceBit (RemovePieceBit b m p1) m p2

/-- The three construction-validation error values of `New` (the Go code
uses `errors.New` with distinct messages; only their identity matters). -/
inductive NewError where
  | ranksError : NewError
  | filesError : NewError
  | sizeError : NewError
deriving DecidableEq

/-- `New` constructs a new `Bitboard`.
Go: builds `b = &Bitboard{}`; assigns `err` on `ranks < 0`, again on
`files < 0`, again on `ranks*files > 64` (a later assignment overwrites
an earlier one); then sets `b.Ranks`, `b.Files` and returns both `b` and
`err`. -/
def New (ranks files : Int) : Bitboard × Option NewError :=
  let err : Option NewError :=
    if ranks * files > 64 then some NewError.sizeError
    else if files < 0 then some NewError.filesError
    else if ranks < 0 then some NewError.ranksError
    else none
  ({ Bitmaps := [], Symbols := [], Occupied := 0, Ranks := ranks, Files := files }, err)

/-- `NewChessBoard` constructs a new chess board. -/
def NewChessBoard : Bitboard :=
  let bitmaps : List Nat :=
    [0x0000000000000081, 0x0000000000000042, 0x0000000000000024,
     0x0000000000000008, 0x0000000000000010, 0x000000000000ff00,
     0x8100000000000000, 0x4200000000000000, 0x2400000000000000,
     0x0800000000000000, 0x1000000000000000, 0x00ff000000000000]
  { Bitmaps := bitmaps,
    Symbols := ["R", "N", "B", "Q", "K", "P", "r", "n", "b", "q", "k", "p"],
    Occupied := util.Union bitmaps,
    Ranks := 8, Files := 8 }

/-- `NewCheckersBoard` constructs a new checkers (English draughts) board. -/
def NewCheckersBoard : Bitboard :=
  let bitmaps : List Nat := [0xaa55aa0000000000, 0x000000000055aa55]
  { Bitmaps := bitmaps, Symbols := ["R", "W"],
    Occupied := util.Union bitmaps, Ranks := 8, Files := 8 }

/-- `NewOthelloBoard` constructs a new Othello board. -/
def NewOthelloBoard : Bitboard :=
  let bitmaps : List Nat := [0x0000001008000000, 0x0000000810000000]
  { Bitmaps := bitmaps, Symbols := ["B", "W"],
    Occupied := util.Union bitmaps, Ranks := 8, Files := 8 }

/-- `NewReversiBoard` constructs a new Reversi board. -/
def NewReversiBoard : Bitboard :=
  let bitmaps : List Nat := [0x0000000000000000, 0x0000000000000000]
  { Bitmaps := bitmaps, Symbols := ["B", "W"],
    Occupied := util.Union bitmaps, Ranks := 8, Files := 8 }

/-- `NewTicTacToeBoard` constructs a new Tic-Tac-Toe board. -/
def NewTicTacToeBoard : Bitboard :=
  let bitmaps : List Nat := [0x0000000000000000, 0x0000000000000000]
  { Bitmaps := bitmaps, Symbols := ["X", "O"],
    Occupied := util.Union bitmaps, Ranks := 3, Files := 3 }

/-- `NewConnectFourBoard` constructs a new Connect Four board. -/
def NewConnectFourBoard : Bitboard :=
  let bitmaps : List Nat := [0x0000000000000000, 0x0000000000000000]
  { Bitmaps := bitmaps, Symbols := ["R", "Y"],
    Occupied := util.Union bitmaps, Ranks := 6, Files := 7 }

/-- One public mutation of a `Bitboard` at an in-range category and
position, with the safety side condition of claim C1 as amended: a
removal (including the removal half of a move) only targets a square
that no category other than `m` occupies. -/
inductive SafeStep : Bitboard → Bitboard → Prop where
  | place (b : Bitboard) (m : Nat) (p : Int) :
      m < b.Bitmaps.length → 0 ≤ p → p < b.Ranks * b.Files →
      SafeStep b (PlacePieceBit b m p)
  | remove (b : Bitboard) (m : Nat) (p : Int) :
      m < b.Bitmaps.length → 0 ≤ p → p < b.Ranks * b.Files →
      (∀ j, j ≠ m → util.GetBit (b.Bitmaps.getD j 0) p = 0) →
      SafeStep b (RemovePieceBit b m p)
  | move (b : Bitboard) (m : Nat) (p1 p2 : Int) :
      m < b.Bitmaps.length →
      0 ≤ p1 → p1 < b.Ranks * b.Files → 0 ≤ p2 → p2 < b.Ranks * b.Files →
      (∀ j, j ≠ m → util.GetBit (b.Bitmaps.getD j 0) p1 = 0) →
      SafeStep b (MovePieceBit b m p1 p2)

end bitboard

/-! ### Generic bit-vector lemmas

Machinery for reasoning about 64-bit words as lists of fixed-width
digits: `dval w ds` is the word whose little-endian base-`2 ^ w` digits
are `ds`; `chunks w n i` decomposes a word into `n` such digits;
`bitsum n i` is the number of set bits among the low `n` bits. -/

/-- `testBit` of a value reduced mod `wsize`. -/
theorem testBit_mod_wsize (x j : Nat) :
    (x % wsize).testBit j = (decide (j < 64) && x.testBit j) :=
  Nat.testBit_mod_two_pow x 64 j

/-- Bits at positions 64 and above of a `uint64` value are clear. -/
theorem testBit_ge_64 {x : Nat} (hx : x < wsize) {m : Nat} (hm : 64 ≤ m) :
    x.testBit m = false :=
  Nat.testBit_lt_two_pow
    (lt_of_lt_of_le hx (Nat.pow_le_pow_right (by norm_num) hm))

/-- Two `uint64` values agreeing on bits 0..63 are equal. -/
theorem eq_of_testBit_eq_64 {a b : Nat} (ha : a < wsize) (hb : b < wsize)
    (h : ∀ j < 64, a.testBit j = b.testBit j) : a = b := by
  apply Nat.eq_of_testBit_eq
  intro j
  by_cases hj : j < 64
  · exact h j hj
  · rw [testBit_ge_64 ha (by omega), testBit_ge_64 hb (by omega)]

/-- The word with little-endian base-`2 ^ w` digits `ds`. -/
def dval (w : Nat) : List Nat → Nat
  | [] => 0
  | d :: ds => d + 2 ^ w * dval w ds

/-- The `n` low base-`2 ^ w` digits of `i`. -/
def chunks (w : Nat) : Nat → Nat → List Nat
  | 0, _ => []
  | n + 1, i => i % 2 ^ w :: chunks w n (i / 2 ^ w)

/-- Pointwise sum of two digit lists (the longer tail is kept). -/
def addp : List Nat → List Nat → List Nat
  | [], bs => bs
  | as, [] => as
  | a :: as, b :: bs => (a + b) :: addp as bs

/-- Merge adjacent digits of width `w` into digits of width `w + w`. -/
def pairup (w : Nat) : List Nat → List Nat
  | [] => []
  | [a] => [a]
  | a :: b :: rest => (a + 2 ^ w * b) :: pairup w rest

/-- Number of set bits among the low `n` bits of `i`. -/
def bitsum : Nat → Nat → Nat
  | 0, _ => 0
  | n + 1, i => i % 2 + bitsum n (i / 2)

theorem dval_nil (w : Nat) : dval w [] = 0 := rfl

theorem dval_cons (w d : Nat) (ds : List Nat) :
    dval w (d :: ds) = d + 2 ^ w * dval w ds := rfl

theorem dval_lt (w : Nat) (ds : List Nat) (h : ∀ d ∈ ds, d < 2 ^ w) :
    dval w ds < 2 ^ (w * ds.length) := by
  induction ds with
  | nil => simp [dval]
  | cons d ds ih =>
    have hd : d < 2 ^ w := h d (by simp)
    have hv : dval w ds < 2 ^ (w * ds.length) := ih (fun x hx => h x (by simp [hx]))
    have hpow : 2 ^ (w * (d :: ds).length) = 2 ^ w * 2 ^ (w * ds.length) := by
      rw [List.length_cons, Nat.mul_succ, Nat.pow_add, Nat.mul_comm]
    rw [dval_cons, hpow]
    have hB : 0 < 2 ^ (w * ds.length) := pow_pos (by norm_num) _
    have haux : 2 ^ w * dval w ds ≤ 2 ^ w * (2 ^ (w * ds.length) - 1) :=
      Nat.mul_le_mul_left _ (by omega)
    have hsplit : 2 ^ w * 2 ^ (w * ds.length) =
        2 ^ w * (2 ^ (w * ds.length) - 1) + 2 ^ w := by
      have h1 : 2 ^ (w * ds.length) - 1 + 1 = 2 ^ (w * ds.length) := by omega
      calc 2 ^ w * 2 ^ (w * ds.length)
          = 2 ^ w * ((2 ^ (w * ds.length) - 1) + 1) := by rw [h1]
        _ = 2 ^ w * (2 ^ (w * ds.length) - 1) + 2 ^ w := by ring
    omega

/-- `testBit` of a split `a + 2 ^ w * b` with `a < 2 ^ w`. -/
theorem tb_split {a : Nat} (b : Nat) {w : Nat} (ha : a < 2 ^ w) (i : Nat) :
    (a + 2 ^ w * b).testBit i =
      if i < w then a.testBit i else b.testBit (i - w) := by
  by_cases hi : i < w
  · rw [if_pos hi]
    have h1 : 2 ^ w * b = 2 ^ (w - i) * b * 2 ^ i := by
      rw [show (2:Nat) ^ w = 2 ^ i * 2 ^ (w - i) by
        rw [← Nat.pow_add]; congr 1; omega]
      ring
    have h2 : (a + 2 ^ w * b) / 2 ^ i = a / 2 ^ i + 2 ^ (w - i) * b := by
      rw [h1, Nat.add_mul_div_right _ _ (pow_pos (by norm_num) i)]
    have h3 : (2:Nat) ^ (w - i) = 2 * 2 ^ (w - i - 1) := by
      conv_lhs => rw [show w - i = (w - i - 1) + 1 by omega]
      rw [Nat.pow_succ]
      ring
    have key : (a + 2 ^ w * b) / 2 ^ i % 2 = a / 2 ^ i % 2 := by
      rw [h2, h3, Nat.mul_assoc]
      generalize 2 ^ (w - i - 1) * b = c
      generalize a / 2 ^ i = d
      omega
    rw [Nat.testBit_to_div_mod, Nat.testBit_to_div_mod, key]
  · rw [if_neg hi]
    have h2 : (a + 2 ^ w * b) / 2 ^ i = b / 2 ^ (i - w) := by
      rw [show (2:Nat) ^ i = 2 ^ w * 2 ^ (i - w) by
        rw [← Nat.pow_add]; congr 1; omega]
      rw [← Nat.div_div_eq_div_mul]
      congr 1
      rw [Nat.add_mul_div_left _ _ (pow_pos (by norm_num) w),
        Nat.div_eq_of_lt ha, Nat.zero_add]
    rw [Nat.testBit_to_div_mod, Nat.testBit_to_div_mod, h2]

/-- `getD` through a `map` whose function sends `0` to `0`. -/
theorem getD_map_zero (f : Nat → Nat) (hf : f 0 = 0) (l : List Nat) (q : Nat) :
    (l.map f).getD q 0 = f (l.getD q 0) := by
  rw [List.getD_eq_getElem?_getD, List.getD_eq_getElem?_getD, List.getElem?_map]
  cases l[q]? with
  | none => simp [hf]
  | some x => simp

/-- Digit extraction: bit `w * q + r` of `dval w ds` is bit `r` of digit `q`. -/
theorem dval_testBit (w : Nat) (ds : List Nat) (h : ∀ d ∈ ds, d < 2 ^ w)
    (q r : Nat) (hr : r < w) :
    (dval w ds).testBit (w * q + r) = (ds.getD q 0).testBit r := by
  induction ds generalizing q with
  | nil => simp [dval, Nat.zero_testBit]
  | cons d ds ih =>
    have hd : d < 2 ^ w := h d (by simp)
    rw [dval_cons, tb_split _ hd]
    cases q with
    | zero =>
      rw [Nat.mul_zero, Nat.zero_add, if_pos hr]
      simp
    | succ q =>
      have hge : ¬(w * (q + 1) + r < w) := by
        have : w * (q + 1) = w * q + w := by ring
        omega
      rw [if_neg hge]
      have hidx : w * (q + 1) + r - w = w * q + r := by
        have : w * (q + 1) = w * q + w := by ring
        omega
      rw [hidx, ih (fun x hx => h x (by simp [hx]))]
      simp

theorem dval_getD_lt (w : Nat) (ds : List Nat) (h : ∀ d ∈ ds, d < 2 ^ w)
    (q : Nat) : ds.getD q 0 < 2 ^ w := by
  by_cases hq : q < ds.length
  · rw [List.getD_eq_getElem ds 0 hq]
    exact h _ (List.getElem_mem hq)
  · rw [List.getD_eq_getElem?_getD, List.getElem?_eq_none (by omega)]
    exact pow_pos (by norm_num) _

/-- Masked shift acts digitwise: if every bit of the per-digit mask `m`
lies in the low `w - s` bits, then shifting right by `s` and masking with
`m` in every digit position is a map over the digits. -/
theorem dval_maskedShift (w s m : Nat) (ds : List Nat) (hw : 0 < w)
    (hs : s ≤ w) (hm : m < 2 ^ (w - s)) (hds : ∀ d ∈ ds, d < 2 ^ w) :
    ((dval w ds) >>> s) &&& dval w (List.replicate ds.length m) =
      dval w (ds.map (fun d => (d >>> s) &&& m)) := by
  have hmw : m < 2 ^ w :=
    lt_of_lt_of_le hm (Nat.pow_le_pow_right (by norm_num) (by omega))
  have hrep : ∀ d ∈ List.replicate ds.length m, d < 2 ^ w := by
    intro d hd
    rw [List.eq_of_mem_replicate hd]
    exact hmw
  have hmap : ∀ d ∈ ds.map (fun d => (d >>> s) &&& m), d < 2 ^ w := by
    intro d hd
    rw [List.mem_map] at hd
    obtain ⟨x, _, rfl⟩ := hd
    exact lt_of_le_of_lt Nat.and_le_right hmw
  apply Nat.eq_of_testBit_eq
  intro i
  have hi : i = w * (i / w) + i % w := (Nat.div_add_mod i w).symm
  set q := i / w with hq
  set r := i % w with hr
  have hrw : r < w := Nat.mod_lt _ hw
  rw [Nat.testBit_land, Nat.testBit_shiftRight]
  rw [hi, dval_testBit w _ hrep q r hrw, dval_testBit w _ hmap q r hrw]
  rw [getD_map_zero _ (by simp) ds q]
  have hrepD : (List.replicate ds.length m).getD q 0 = if q < ds.length then m else 0 := by
    rw [List.getD_eq_getElem?_getD, List.getElem?_replicate]
    by_cases hql : q < ds.length <;> simp [hql]
  rw [hrepD]
  by_cases hql : q < ds.length
  · rw [if_pos hql]
    by_cases hmr : m.testBit r = true
    · have hrws : r < w - s := by
        by_contra hcon
        rw [Nat.testBit_lt_two_pow
          (lt_of_lt_of_le hm (Nat.pow_le_pow_right (by norm_num) (by omega)))] at hmr
        exact Bool.false_ne_true hmr
      have harith : s + (w * q + r) = w * q + (r + s) := by ring
      rw [harith, dval_testBit w ds hds q (r + s) (by omega), hmr]
      rw [Nat.testBit_land, Nat.testBit_shiftRight, hmr]
      rw [Nat.add_comm r s]
    · rw [Bool.not_eq_true] at hmr
      rw [hmr, Nat.testBit_land, hmr]
      simp
  · rw [if_neg hql]
    have hqm : ds.length ≤ q := by omega
    have hds0 : ds.getD q 0 = 0 := by
      rw [List.getD_eq_getElem?_getD, List.getElem?_eq_none (by omega)]
      rfl
    rw [hds0]
    simp [Nat.zero_testBit]

/-- The `s = 0` case of `dval_maskedShift`: masking with a per-digit
mask is a map over the digits. -/
theorem dval_masked0 (w m : Nat) (ds : List Nat) (hw : 0 < w)
    (hm : m < 2 ^ w) (hds : ∀ d ∈ ds, d < 2 ^ w) :
    (dval w ds) &&& dval w (List.replicate ds.length m) =
      dval w (ds.map (fun d => d &&& m)) := by
  have h := dval_maskedShift w 0 m ds hw (by omega) (by simpa using hm) hds
  rw [Nat.shiftRight_zero] at h
  rw [h]
  exact congrArg (dval w)
    (List.map_congr_left (fun d _ => by rw [Nat.shiftRight_zero]))

theorem dval_addp (w : Nat) : ∀ as bs : List Nat,
    dval w (addp as bs) = dval w as + dval w bs
  | [], bs => by simp [addp, dval]
  | a :: as, [] => by simp [addp, dval]
  | a :: as, b :: bs => by
    have ih := dval_addp w as bs
    simp only [addp, dval_cons, ih]
    ring

theorem dval_map_mul (w c : Nat) (ds : List Nat) :
    dval w (ds.map (fun d => c * d)) = c * dval w ds := by
  induction ds with
  | nil => simp [dval]
  | cons d ds ih =>
    simp only [List.map_cons, dval_cons, ih]
    ring

theorem zipWith_self_map {α β : Type} (g : α → α → β) (f : α → α) :
    ∀ l : List α, List.zipWith g l (l.map f) = l.map (fun d => g d (f d))
  | [] => by simp
  | a :: l => by simp [zipWith_self_map g f l]

theorem dval_sub (w : Nat) : ∀ as bs : List Nat,
    List.Forall₂ (fun a b => b ≤ a) as bs →
    dval w bs + dval w (List.zipWith (fun a b => a - b) as bs) = dval w as := by
  intro as bs h
  induction h with
  | nil => simp [dval]
  | cons hab hrest ih =>
    simp only [List.zipWith_cons_cons, dval_cons]
    calc _ = (_ + (_ - _)) + 2 ^ w * (dval w _ + dval w (List.zipWith _ _ _)) := by ring
      _ = _ := by rw [ih, Nat.add_sub_cancel' hab]

theorem forall₂_ge_map (f : Nat → Nat) :
    ∀ l : List Nat, (∀ d ∈ l, f d ≤ d) →
    List.Forall₂ (fun a b => b ≤ a) l (l.map f)
  | [], _ => by simp
  | a :: l, h => by
    simp only [List.map_cons, List.forall₂_cons]
    exact ⟨h a (by simp), forall₂_ge_map f l (fun d hd => h d (by simp [hd]))⟩

theorem dval_map_le (w : Nat) (f : Nat → Nat) :
    ∀ l : List Nat, (∀ d ∈ l, f d ≤ d) → dval w (l.map f) ≤ dval w l
  | [], _ => by simp [dval]
  | a :: l, h => by
    simp only [List.map_cons, dval_cons]
    have h1 := h a (by simp)
    have h2 := dval_map_le w f l (fun d hd => h d (by simp [hd]))
    have := Nat.mul_le_mul_left (2 ^ w) h2
    omega

theorem dval_pairup (w : Nat) : ∀ ds : List Nat,
    dval (w + w) (pairup w ds) = dval w ds
  | [] => by simp [pairup, dval]
  | [a] => by simp [pairup, dval]
  | a :: b :: rest => by
    have ih := dval_pairup w rest
    simp only [pairup, dval_cons, ih, Nat.pow_add]
    ring

theorem pairup_lt (w : Nat) : ∀ ds : List Nat, (∀ d ∈ ds, d < 2 ^ w) →
    ∀ x ∈ pairup w ds, x < 2 ^ (w + w)
  | [], _ => by simp [pairup]
  | [a], h => by
    simp only [pairup, List.mem_singleton]
    rintro x rfl
    exact lt_of_lt_of_le (h x (by simp))
      (Nat.pow_le_pow_right (by norm_num) (by omega))
  | a :: b :: rest, h => by
    simp only [pairup, List.mem_cons]
    rintro x (rfl | hx)
    · have ha : a < 2 ^ w := h a (by simp)
      have hb : b < 2 ^ w := h b (by simp)
      have hb1 : b ≤ 2 ^ w - 1 := by omega
      have : 2 ^ w * b ≤ 2 ^ w * (2 ^ w - 1) := Nat.mul_le_mul_left _ hb1
      have hpow : 2 ^ (w + w) = 2 ^ w * 2 ^ w := by rw [Nat.pow_add]
      have hw : 0 < 2 ^ w := pow_pos (by norm_num) w
      have hsplit : 2 ^ w * 2 ^ w = 2 ^ w * (2 ^ w - 1) + 2 ^ w := by
        have h1 : 2 ^ w - 1 + 1 = 2 ^ w := by omega
        calc 2 ^ w * 2 ^ w = 2 ^ w * ((2 ^ w - 1) + 1) := by rw [h1]
          _ = 2 ^ w * (2 ^ w - 1) + 2 ^ w := by ring
      omega
    · exact pairup_lt w rest (fun d hd => h d (by simp [hd])) x hx

theorem pairup_sum (w : Nat) : ∀ ds : List Nat, (∀ d ∈ ds, d < 2 ^ w) →
    ((pairup w ds).map (fun c => c % 2 ^ w + c / 2 ^ w)).sum = ds.sum
  | [], _ => by simp [pairup]
  | [a], h => by
    have ha : a < 2 ^ w := h a (by simp)
    simp [pairup, Nat.mod_eq_of_lt ha, Nat.div_eq_of_lt ha]
  | a :: b :: rest, h => by
    have ha : a < 2 ^ w := h a (by simp)
    have ih := pairup_sum w rest (fun d hd => h d (by simp [hd]))
    simp only [pairup, List.map_cons, List.sum_cons, ih]
    have hmod : (a + 2 ^ w * b) % 2 ^ w = a := by
      rw [Nat.add_mul_mod_self_left, Nat.mod_eq_of_lt ha]
    have hdiv : (a + 2 ^ w * b) / 2 ^ w = b := by
      rw [Nat.add_mul_div_left _ _ (pow_pos (by norm_num) w),
        Nat.div_eq_of_lt ha, Nat.zero_add]
    rw [hmod, hdiv]
    ring

theorem addp_map_map (f g : Nat → Nat) :
    ∀ l : List Nat, addp (l.map f) (l.map g) = l.map (fun x => f x + g x)
  | [] => by simp [addp]
  | a :: l => by simp [addp, addp_map_map f g l]

theorem dval_tail (w : Nat) (ds : List Nat) (h : ∀ d ∈ ds, d < 2 ^ w) :
    (dval w ds) >>> w = dval w ds.tail := by
  cases ds with
  | nil => simp [dval]
  | cons d ds =>
    have hd : d < 2 ^ w := h d (by simp)
    rw [dval_cons, Nat.shiftRight_eq_div_pow, List.tail_cons]
    rw [Nat.add_mul_div_left _ _ (pow_pos (by norm_num) w),
      Nat.div_eq_of_lt hd, Nat.zero_add]

theorem addp_length : ∀ as bs : List Nat,
    (addp as bs).length = max as.length bs.length
  | [], bs => by simp [addp]
  | a :: as, [] => by simp [addp]
  | a :: as, b :: bs => by
    simp [addp, addp_length as bs]
    omega

theorem addp_bound (A B : Nat) : ∀ as bs : List Nat,
    (∀ a ∈ as, a < A) → (∀ b ∈ bs, b < B) → 0 < A → 0 < B →
    ∀ x ∈ addp as bs, x < A + B
  | [], bs, _, hb, _, _ => fun x hx => by
    have := hb x (by simpa [addp] using hx)
    omega
  | a :: as, [], ha, _, _, _ => fun x hx => by
    have := ha x (by simpa [addp] using hx)
    omega
  | a :: as, b :: bs, ha, hb, hA, hB => by
    simp only [addp, List.mem_cons]
    rintro x (rfl | hx)
    · have h1 := ha a (by simp)
      have h2 := hb b (by simp)
      omega
    · exact addp_bound A B as bs (fun y hy => ha y (by simp [hy]))
        (fun y hy => hb y (by simp [hy])) hA hB x hx

theorem pairup_length (w : Nat) : ∀ ds : List Nat,
    (pairup w ds).length = (ds.length + 1) / 2
  | [] => by simp [pairup]
  | [a] => by simp [pairup]
  | a :: b :: rest => by
    simp [pairup, pairup_length w rest]
    omega

theorem chunks_length (w : Nat) : ∀ n i : Nat, (chunks w n i).length = n
  | 0, _ => rfl
  | n + 1, i => by simp [chunks, chunks_length w n]

theorem chunks_lt (w : Nat) : ∀ n i : Nat, ∀ d ∈ chunks w n i, d < 2 ^ w
  | 0, i => by simp [chunks]
  | n + 1, i => by
    simp only [chunks, List.mem_cons]
    rintro d (rfl | hd)
    · exact Nat.mod_lt _ (pow_pos (by norm_num) w)
    · exact chunks_lt w n (i / 2 ^ w) d hd

theorem dval_chunks (w : Nat) : ∀ n i : Nat,
    dval w (chunks w n i) = i % 2 ^ (w * n)
  | 0, i => by simp [chunks, dval, Nat.mod_one]
  | n + 1, i => by
    rw [chunks, dval_cons, dval_chunks w n (i / 2 ^ w)]
    rw [show w * (n + 1) = w + w * n by ring, Nat.pow_add, Nat.mod_mul]

theorem bitsum_add (b : Nat) : ∀ a i : Nat,
    bitsum (a + b) i = bitsum a i + bitsum b (i / 2 ^ a)
  | 0, i => by simp [bitsum]
  | a + 1, i => by
    have h : a + 1 + b = (a + b) + 1 := by ring
    rw [h]
    show i % 2 + bitsum (a + b) (i / 2) = (i % 2 + bitsum a (i / 2)) + _
    rw [bitsum_add b a (i / 2), Nat.div_div_eq_div_mul,
      show 2 * 2 ^ a = 2 ^ (a + 1) by rw [Nat.pow_succ]; ring]
    ring

theorem bitsum_chunks (w : Nat) : ∀ n i : Nat,
    bitsum (w * n) i = ((chunks w n i).map (bitsum w)).sum
  | 0, i => by simp [chunks, bitsum, Nat.mul_zero]
  | n + 1, i => by
    rw [show w * (n + 1) = w + w * n by ring, bitsum_add (w * n) w i,
      bitsum_chunks w n (i / 2 ^ w), chunks]
    simp only [List.map_cons, List.sum_cons]
    congr 1
    have : bitsum w (i % 2 ^ w) = bitsum w i := by
      clear bitsum_chunks
      induction w generalizing i with
      | zero => simp [bitsum]
      | succ w ih =>
        show i % 2 ^ (w + 1) % 2 + bitsum w (i % 2 ^ (w + 1) / 2) = i % 2 + bitsum w (i / 2)
        have h1 : i % 2 ^ (w + 1) % 2 = i % 2 := by
          rw [Nat.mod_mod_of_dvd _ (dvd_pow_self 2 (Nat.succ_ne_zero w))]
        have h2 : i % 2 ^ (w + 1) / 2 = i / 2 % 2 ^ w := by
          have hp : (2:Nat) ^ (w + 1) = 2 * 2 ^ w := by
            rw [Nat.pow_succ]
            ring
          rw [hp, Nat.mod_mul_right_div_self]
        rw [h1, h2, ih]
    rw [this]

theorem countP_range_testBit : ∀ (n : Nat) (i : Nat),
    (List.range n).countP (fun p => i.testBit p) = bitsum n i
  | 0, i => by simp [bitsum]
  | n + 1, i => by
    rw [List.range_succ_eq_map, List.countP_cons, List.countP_map]
    have h1 : (List.range n).countP ((fun p => i.testBit p) ∘ Nat.succ) =
        (List.range n).countP (fun p => (i / 2).testBit p) := by
      apply List.countP_congr
      intro a _
      show i.testBit a.succ = true ↔ (i / 2).testBit a = true
      rw [Nat.testBit_succ]
    rw [h1, countP_range_testBit n (i / 2)]
    show bitsum n (i / 2) + _ = i % 2 + bitsum n (i / 2)
    have h2 : i.testBit 0 = decide (i % 2 = 1) := by
      rw [Nat.testBit_to_div_mod]
      norm_num
    rw [h2]
    rcases Nat.mod_two_eq_zero_or_one i with h | h <;> simp [h] <;> omega

/-- Summing adjacent pairs (`addp ds ds.tail`), merging into double-width
digits, and truncating each merged digit to its low half preserves the
total sum. -/
theorem adj_pairup_sum (w : Nat) : ∀ ds : List Nat, (∀ d ∈ ds, 2 * d < 2 ^ w) →
    ((pairup w (addp ds ds.tail)).map (fun c => c % 2 ^ w)).sum = ds.sum
  | [], _ => by simp [addp, pairup]
  | [a], h => by
    have ha : a < 2 ^ w := by have := h a (by simp); omega
    simp [addp, pairup, Nat.mod_eq_of_lt ha]
  | a :: b :: rest, h => by
    have hab : a + b < 2 ^ w := by
      have h1 := h a (by simp)
      have h2 := h b (by simp)
      omega
    cases rest with
    | nil =>
      show ((pairup w ((a + b) :: addp [b] [])).map (fun c => c % 2 ^ w)).sum = _
      show ((pairup w [a + b, b]).map (fun c => c % 2 ^ w)).sum = _
      show ((a + b + 2 ^ w * b) % 2 ^ w) + 0 = a + (b + 0)
      rw [Nat.add_mul_mod_self_left, Nat.mod_eq_of_lt hab]
      ring
    | cons c rs =>
      have ih := adj_pairup_sum w (c :: rs) (fun d hd => h d (by simp [hd]))
      show ((pairup w ((a + b) :: (b + c) :: addp (c :: rs) rs)).map
        (fun x => x % 2 ^ w)).sum = _
      show ((a + b + 2 ^ w * (b + c)) % 2 ^ w) +
        ((pairup w (addp (c :: rs) rs)).map (fun x => x % 2 ^ w)).sum = _
      rw [List.tail_cons] at ih
      rw [ih, Nat.add_mul_mod_self_left, Nat.mod_eq_of_lt hab]
      show a + b + (c + rs.sum) = a + (b + (c + rs.sum))
      ring

theorem dval_sub_map (w : Nat) (f : Nat → Nat) :
    ∀ l : List Nat, (∀ d ∈ l, f d ≤ d) →
    dval w (l.map f) + dval w (l.map (fun d => d - f d)) = dval w l
  | [], _ => by simp [dval]
  | a :: l, hf => by
    simp only [List.map_cons, dval_cons]
    have h1 : f a + (a - f a) = a := Nat.add_sub_cancel' (hf a (by simp))
    have ih := dval_sub_map w f l (fun d hd => hf d (by simp [hd]))
    calc f a + 2 ^ w * dval w (l.map f) +
          (a - f a + 2 ^ w * dval w (l.map fun d => d - f d))
        = (f a + (a - f a)) +
          2 ^ w * (dval w (l.map f) + dval w (l.map fun d => d - f d)) := by ring
      _ = a + 2 ^ w * dval w l := by rw [h1, ih]

theorem exists_cons_of_length_pos (l : List Nat) (h : 0 < l.length) :
    ∃ a t, l = a :: t := by
  cases l with
  | nil => simp at h
  | cons a t => exact ⟨a, t, rfl⟩

/-- Hypothesis helper: every member of an explicit list of bounded sums
is below a power of two. -/
theorem popcount_final (hs : List Nat) (hlen : hs.length = 8)
    (hb : ∀ x ∈ hs, x < 16) :
    ((((dval 8 hs + (dval 8 hs >>> 8)) % wsize +
       (((dval 8 hs + (dval 8 hs >>> 8)) % wsize) >>> 16)) % wsize +
      ((((dval 8 hs + (dval 8 hs >>> 8)) % wsize +
       (((dval 8 hs + (dval 8 hs >>> 8)) % wsize) >>> 16)) % wsize) >>> 32)) % wsize)
      &&& 0x7f = hs.sum := by
  obtain ⟨b0, l1, rfl⟩ := exists_cons_of_length_pos hs (by omega)
  rw [List.length_cons] at hlen
  obtain ⟨b1, l2, rfl⟩ := exists_cons_of_length_pos l1 (by omega)
  rw [List.length_cons] at hlen
  obtain ⟨b2, l3, rfl⟩ := exists_cons_of_length_pos l2 (by omega)
  rw [List.length_cons] at hlen
  obtain ⟨b3, l4, rfl⟩ := exists_cons_of_length_pos l3 (by omega)
  rw [List.length_cons] at hlen
  obtain ⟨b4, l5, rfl⟩ := exists_cons_of_length_pos l4 (by omega)
  rw [List.length_cons] at hlen
  obtain ⟨b5, l6, rfl⟩ := exists_cons_of_length_pos l5 (by omega)
  rw [List.length_cons] at hlen
  obtain ⟨b6, l7, rfl⟩ := exists_cons_of_length_pos l6 (by omega)
  rw [List.length_cons] at hlen
  obtain ⟨b7, l8, rfl⟩ := exists_cons_of_length_pos l7 (by omega)
  rw [List.length_cons] at hlen
  have hl8 : l8 = [] := by
    cases l8 with
    | nil => rfl
    | cons x t => simp at hlen
  subst hl8
  have h0 : b0 < 16 := hb b0 (by simp)
  have h1 : b1 < 16 := hb b1 (by simp)
  have h2 : b2 < 16 := hb b2 (by simp)
  have h3 : b3 < 16 := hb b3 (by simp)
  have h4 : b4 < 16 := hb b4 (by simp)
  have h5 : b5 < 16 := hb b5 (by simp)
  have h6 : b6 < 16 := hb b6 (by simp)
  have h7 : b7 < 16 := hb b7 (by simp)
  have hbound : ∀ L : List Nat, (∀ x ∈ L, x < 2 ^ 8) → L.length ≤ 8 →
      dval 8 L < wsize := by
    intro L hL hlen8
    have := dval_lt 8 L hL
    rw [wsize_eq]
    exact lt_of_lt_of_le this (Nat.pow_le_pow_right (by norm_num) (by omega))
  have hlt3 : ∀ x ∈ [b0, b1, b2, b3, b4, b5, b6, b7], x < 2 ^ 8 := by
    intro x hx
    simp only [List.mem_cons, List.not_mem_nil, or_false] at hx
    rcases hx with rfl | rfl | rfl | rfl | rfl | rfl | rfl | rfl <;> omega
  have hdrop1 : dval 8 [b0, b1, b2, b3, b4, b5, b6, b7] >>> 8 =
      dval 8 [b1, b2, b3, b4, b5, b6, b7] :=
    dval_tail 8 _ hlt3
  have hsum4 : dval 8 [b0, b1, b2, b3, b4, b5, b6, b7] +
      dval 8 [b1, b2, b3, b4, b5, b6, b7] =
      dval 8 [b0 + b1, b1 + b2, b2 + b3, b3 + b4, b4 + b5, b5 + b6, b6 + b7, b7] := by
    rw [← dval_addp]
    rfl
  have hlt4 : ∀ x ∈ [b0 + b1, b1 + b2, b2 + b3, b3 + b4, b4 + b5, b5 + b6,
      b6 + b7, b7], x < 2 ^ 8 := by
    intro x hx
    simp only [List.mem_cons, List.not_mem_nil, or_false] at hx
    rcases hx with rfl | rfl | rfl | rfl | rfl | rfl | rfl | rfl <;> omega
  have hm4 : dval 8 [b0 + b1, b1 + b2, b2 + b3, b3 + b4, b4 + b5, b5 + b6,
      b6 + b7, b7] % wsize =
      dval 8 [b0 + b1, b1 + b2, b2 + b3, b3 + b4, b4 + b5, b5 + b6, b6 + b7, b7] :=
    Nat.mod_eq_of_lt (hbound _ hlt4 (by simp))
  have hlt4t : ∀ x ∈ [b1 + b2, b2 + b3, b3 + b4, b4 + b5, b5 + b6, b6 + b7, b7],
      x < 2 ^ 8 := by
    intro x hx
    simp only [List.mem_cons, List.not_mem_nil, or_false] at hx
    rcases hx with rfl | rfl | rfl | rfl | rfl | rfl | rfl <;> omega
  have hdrop2 : dval 8 [b0 + b1, b1 + b2, b2 + b3, b3 + b4, b4 + b5, b5 + b6,
      b6 + b7, b7] >>> 16 =
      dval 8 [b2 + b3, b3 + b4, b4 + b5, b5 + b6, b6 + b7, b7] := by
    rw [show (16:Nat) = 8 + 8 from rfl, Nat.shiftRight_add]
    rw [dval_tail 8 _ hlt4, List.tail_cons]
    exact dval_tail 8 _ hlt4t
  have hsum5 : dval 8 [b0 + b1, b1 + b2, b2 + b3, b3 + b4, b4 + b5, b5 + b6,
      b6 + b7, b7] + dval 8 [b2 + b3, b3 + b4, b4 + b5, b5 + b6, b6 + b7, b7] =
      dval 8 [b0 + b1 + (b2 + b3), b1 + b2 + (b3 + b4), b2 + b3 + (b4 + b5),
        b3 + b4 + (b5 + b6), b4 + b5 + (b6 + b7), b5 + b6 + b7, b6 + b7, b7] := by
    rw [← dval_addp]
    rfl
  have hlt5 : ∀ x ∈ [b0 + b1 + (b2 + b3), b1 + b2 + (b3 + b4), b2 + b3 + (b4 + b5),
      b3 + b4 + (b5 + b6), b4 + b5 + (b6 + b7), b5 + b6 + b7, b6 + b7, b7],
      x < 2 ^ 8 := by
    intro x hx
    simp only [List.mem_cons, List.not_mem_nil, or_false] at hx
    rcases hx with rfl | rfl | rfl | rfl | rfl | rfl | rfl | rfl <;> omega
  have hm5 : dval 8 [b0 + b1 + (b2 + b3), b1 + b2 + (b3 + b4), b2 + b3 + (b4 + b5),
      b3 + b4 + (b5 + b6), b4 + b5 + (b6 + b7), b5 + b6 + b7, b6 + b7, b7] % wsize =
      dval 8 [b0 + b1 + (b2 + b3), b1 + b2 + (b3 + b4), b2 + b3 + (b4 + b5),
        b3 + b4 + (b5 + b6), b4 + b5 + (b6 + b7), b5 + b6 + b7, b6 + b7, b7] :=
    Nat.mod_eq_of_lt (hbound _ hlt5 (by simp))
  have hdrop4 : dval 8 [b0 + b1 + (b2 + b3), b1 + b2 + (b3 + b4),
      b2 + b3 + (b4 + b5), b3 + b4 + (b5 + b6), b4 + b5 + (b6 + b7),
      b5 + b6 + b7, b6 + b7, b7] >>> 32 =
      dval 8 [b4 + b5 + (b6 + b7), b5 + b6 + b7, b6 + b7, b7] := by
    have e1 : ∀ x : Nat, x >>> 32 = x >>> 8 >>> 8 >>> 8 >>> 8 := by
      intro x
      rw [show (32:Nat) = 8 + 8 + 8 + 8 from rfl, Nat.shiftRight_add,
        Nat.shiftRight_add, Nat.shiftRight_add]
    rw [e1]
    rw [dval_tail 8 _ hlt5, List.tail_cons]
    have t1 : ∀ x ∈ [b1 + b2 + (b3 + b4), b2 + b3 + (b4 + b5),
        b3 + b4 + (b5 + b6), b4 + b5 + (b6 + b7), b5 + b6 + b7, b6 + b7, b7],
        x < 2 ^ 8 := by
      intro x hx
      simp only [List.mem_cons, List.not_mem_nil, or_false] at hx
      rcases hx with rfl | rfl | rfl | rfl | rfl | rfl | rfl <;> omega
    rw [dval_tail 8 _ t1, List.tail_cons]
    have t2 : ∀ x ∈ [b2 + b3 + (b4 + b5), b3 + b4 + (b5 + b6),
        b4 + b5 + (b6 + b7), b5 + b6 + b7, b6 + b7, b7], x < 2 ^ 8 := by
      intro x hx
      simp only [List.mem_cons, List.not_mem_nil, or_false] at hx
      rcases hx with rfl | rfl | rfl | rfl | rfl | rfl <;> omega
    rw [dval_tail 8 _ t2, List.tail_cons]
    have t3 : ∀ x ∈ [b3 + b4 + (b5 + b6), b4 + b5 + (b6 + b7), b5 + b6 + b7,
        b6 + b7, b7], x < 2 ^ 8 := by
      intro x hx
      simp only [List.mem_cons, List.not_mem_nil, or_false] at hx
      rcases hx with rfl | rfl | rfl | rfl | rfl <;> omega
    rw [dval_tail 8 _ t3, List.tail_cons]
  rw [hdrop1, hsum4, hm4, hdrop2, hsum5, hm5, hdrop4, ← dval_addp]
  show dval 8 [b0 + b1 + (b2 + b3) + (b4 + b5 + (b6 + b7)),
    b1 + b2 + (b3 + b4) + (b5 + b6 + b7), b2 + b3 + (b4 + b5) + (b6 + b7),
    b3 + b4 + (b5 + b6) + b7, b4 + b5 + (b6 + b7), b5 + b6 + b7, b6 + b7, b7]
    % wsize &&& 0x7f = _
  rw [dval_cons]
  rw [show (0x7f : Nat) = 2 ^ 7 - 1 from rfl, Nat.and_pow_two_sub_one_eq_mod,
    wsize_eq, Nat.mod_mod_of_dvd _ (by norm_num : (2:Nat) ^ 7 ∣ 2 ^ 64)]
  generalize dval 8 [b1 + b2 + (b3 + b4) + (b5 + b6 + b7),
    b2 + b3 + (b4 + b5) + (b6 + b7), b3 + b4 + (b5 + b6) + b7,
    b4 + b5 + (b6 + b7), b5 + b6 + b7, b6 + b7, b7] = R
  simp only [List.sum_cons, List.sum_nil]
  omega

/-- The SWAR `PopCount` equals the number of set bits among the low 64
bits, for every `uint64` value. -/
theorem PopCount_eq_bitsum (i : Nat) (hi : i < wsize) :
    util.PopCount i = bitsum 64 i := by
  have hlen : (chunks 2 32 i).length = 32 := chunks_length 2 32 i
  have hlt : ∀ d ∈ chunks 2 32 i, d < 2 ^ 2 := chunks_lt 2 32 i
  have hval : dval 2 (chunks 2 32 i) = i := by
    rw [dval_chunks]
    have h64 : (2:Nat) ^ (2 * 32) = wsize := by rw [wsize_eq]
    rw [h64]
    exact Nat.mod_eq_of_lt hi
  -- step 1: the masked shift and the wrapping subtraction
  have hmask1 : (0x5555555555555555 : Nat) =
      dval 2 (List.replicate (chunks 2 32 i).length 1) := by
    rw [hlen]
    decide
  have hstep1a : (i >>> 1) &&& 0x5555555555555555 =
      dval 2 ((chunks 2 32 i).map (fun d => (d >>> 1) &&& 1)) := by
    conv_lhs => rw [← hval, hmask1]
    exact dval_maskedShift 2 1 1 (chunks 2 32 i) (by norm_num) (by norm_num)
      (by norm_num) hlt
  have hmap1 : ∀ d ∈ chunks 2 32 i, (d >>> 1) &&& 1 = d / 2 := by
    intro d hd
    have h4 : d < 2 ^ 2 := hlt d hd
    rw [Nat.shiftRight_eq_div_pow, Nat.and_one_is_mod]
    norm_num at h4 ⊢
    omega
  have hstep1b : (i >>> 1) &&& 0x5555555555555555 =
      dval 2 ((chunks 2 32 i).map (fun d => d / 2)) := by
    rw [hstep1a]
    exact congrArg (dval 2) (List.map_congr_left hmap1)
  have hle1 : dval 2 ((chunks 2 32 i).map (fun d => d / 2)) ≤ i := by
    conv_rhs => rw [← hval]
    exact dval_map_le 2 _ _ (fun d _ => Nat.div_le_self d 2)
  have hsub : dval 2 ((chunks 2 32 i).map (fun d => d / 2)) +
      dval 2 ((chunks 2 32 i).map (fun d => d - d / 2)) = i := by
    have h := dval_sub_map 2 (fun d => d / 2) (chunks 2 32 i)
      (fun d _ => Nat.div_le_self d 2)
    rw [hval] at h
    exact h
  have hstep1 : (i + (wsize - ((i >>> 1) &&& 0x5555555555555555))) % wsize =
      dval 2 ((chunks 2 32 i).map (fun d => d - d / 2)) := by
    rw [hstep1b]
    set A := dval 2 ((chunks 2 32 i).map (fun d => d / 2)) with hA
    set B := dval 2 ((chunks 2 32 i).map (fun d => d - d / 2)) with hB
    rw [wsize_eq] at hi ⊢
    omega
  -- digit bounds and bit-count sum for the step-1 digits
  have hlt1 : ∀ x ∈ (chunks 2 32 i).map (fun d => d - d / 2), x < 2 ^ 2 := by
    intro x hx
    rw [List.mem_map] at hx
    obtain ⟨d, hd, rfl⟩ := hx
    have h4 : d < 2 ^ 2 := hlt d hd
    norm_num at h4 ⊢
    omega
  have hsum1 : ((chunks 2 32 i).map (fun d => d - d / 2)).sum = bitsum 64 i := by
    have h1 : bitsum 64 i = ((chunks 2 32 i).map (bitsum 2)).sum := by
      have h := bitsum_chunks 2 32 i
      norm_num at h
      exact h
    rw [h1]
    apply congrArg List.sum
    apply List.map_congr_left
    intro d hd
    have h4 : d < 2 ^ 2 := hlt d hd
    norm_num at h4
    show d - d / 2 = d % 2 + (d / 2 % 2 + 0)
    omega
  -- step 2: regroup to width 4, mask with 0x33…, add
  have hcs_val : dval 4 (pairup 2 ((chunks 2 32 i).map (fun d => d - d / 2))) =
      dval 2 ((chunks 2 32 i).map (fun d => d - d / 2)) :=
    dval_pairup 2 _
  have hcs_lt : ∀ x ∈ pairup 2 ((chunks 2 32 i).map (fun d => d - d / 2)),
      x < 2 ^ 4 :=
    pairup_lt 2 _ hlt1
  have hcs_len : (pairup 2 ((chunks 2 32 i).map (fun d => d - d / 2))).length = 16 := by
    rw [pairup_length, List.length_map, hlen]
  have hmask2 : (0x3333333333333333 : Nat) =
      dval 4 (List.replicate
        (pairup 2 ((chunks 2 32 i).map (fun d => d - d / 2))).length 3) := by
    rw [hcs_len]
    decide
  have hstep2a : dval 2 ((chunks 2 32 i).map (fun d => d - d / 2)) &&&
      0x3333333333333333 =
      dval 4 ((pairup 2 ((chunks 2 32 i).map (fun d => d - d / 2))).map
        (fun c => c &&& 3)) := by
    conv_lhs => rw [← hcs_val, hmask2]
    exact dval_masked0 4 3 _ (by norm_num) (by norm_num) hcs_lt
  have hstep2b : (dval 2 ((chunks 2 32 i).map (fun d => d - d / 2)) >>> 2) &&&
      0x3333333333333333 =
      dval 4 ((pairup 2 ((chunks 2 32 i).map (fun d => d - d / 2))).map
        (fun c => (c >>> 2) &&& 3)) := by
    conv_lhs => rw [← hcs_val, hmask2]
    exact dval_maskedShift 4 2 3 _ (by norm_num) (by norm_num) (by norm_num) hcs_lt
  have hm2a : ∀ c ∈ pairup 2 ((chunks 2 32 i).map (fun d => d - d / 2)),
      c &&& 3 = c % 4 := by
    intro c _
    rw [show (3:Nat) = 2 ^ 2 - 1 from rfl, Nat.and_pow_two_sub_one_eq_mod]
  have hm2b : ∀ c ∈ pairup 2 ((chunks 2 32 i).map (fun d => d - d / 2)),
      (c >>> 2) &&& 3 = c / 4 := by
    intro c hc
    have h16 : c < 2 ^ 4 := hcs_lt c hc
    rw [Nat.shiftRight_eq_div_pow, show (3:Nat) = 2 ^ 2 - 1 from rfl,
      Nat.and_pow_two_sub_one_eq_mod]
    norm_num at h16 ⊢
    omega
  have hes_lt : ∀ x ∈ (pairup 2 ((chunks 2 32 i).map (fun d => d - d / 2))).map
      (fun c => c % 4 + c / 4), x < 2 ^ 4 := by
    intro x hx
    rw [List.mem_map] at hx
    obtain ⟨c, hc, rfl⟩ := hx
    have h16 : c < 2 ^ 4 := hcs_lt c hc
    norm_num at h16 ⊢
    omega
  have hes_lt2 : ∀ x ∈ (pairup 2 ((chunks 2 32 i).map (fun d => d - d / 2))).map
      (fun c => c % 4 + c / 4), 2 * x < 2 ^ 4 := by
    intro x hx
    rw [List.mem_map] at hx
    obtain ⟨c, hc, rfl⟩ := hx
    have h16 : c < 2 ^ 4 := hcs_lt c hc
    norm_num at h16 ⊢
    omega
  have hes_len : ((pairup 2 ((chunks 2 32 i).map (fun d => d - d / 2))).map
      (fun c => c % 4 + c / 4)).length = 16 := by
    rw [List.length_map, hcs_len]
  have hes_sum : ((pairup 2 ((chunks 2 32 i).map (fun d => d - d / 2))).map
      (fun c => c % 4 + c / 4)).sum =
      ((chunks 2 32 i).map (fun d => d - d / 2)).sum :=
    pairup_sum 2 _ hlt1
  have he1 : dval 4 ((pairup 2 ((chunks 2 32 i).map (fun d => d - d / 2))).map
        (fun c => c % 4)) +
      dval 4 ((pairup 2 ((chunks 2 32 i).map (fun d => d - d / 2))).map
        (fun c => c / 4)) =
      dval 4 ((pairup 2 ((chunks 2 32 i).map (fun d => d - d / 2))).map
        (fun c => c % 4 + c / 4)) := by
    rw [← dval_addp]
    exact congrArg (dval 4) (addp_map_map (fun c => c % 4) (fun c => c / 4) _)
  have hes_dlt : dval 4 ((pairup 2 ((chunks 2 32 i).map (fun d => d - d / 2))).map
      (fun c => c % 4 + c / 4)) < wsize := by
    have h := dval_lt 4 _ hes_lt
    rw [hes_len] at h
    exact h
  have hstep2 : ((dval 2 ((chunks 2 32 i).map (fun d => d - d / 2)) &&&
        0x3333333333333333) +
      ((dval 2 ((chunks 2 32 i).map (fun d => d - d / 2)) >>> 2) &&&
        0x3333333333333333)) % wsize =
      dval 4 ((pairup 2 ((chunks 2 32 i).map (fun d => d - d / 2))).map
        (fun c => c % 4 + c / 4)) := by
    rw [hstep2a, hstep2b, List.map_congr_left hm2a, List.map_congr_left hm2b, he1]
    exact Nat.mod_eq_of_lt hes_dlt
  -- step 3: adjacent sums, regroup to width 8, mask with 0x0f…
  have hdrop : dval 4 ((pairup 2 ((chunks 2 32 i).map (fun d => d - d / 2))).map
      (fun c => c % 4 + c / 4)) >>> 4 =
      dval 4 ((pairup 2 ((chunks 2 32 i).map (fun d => d - d / 2))).map
        (fun c => c % 4 + c / 4)).tail :=
    dval_tail 4 _ hes_lt
  have hss_lt : ∀ x ∈ addp ((pairup 2 ((chunks 2 32 i).map (fun d => d - d / 2))).map
      (fun c => c % 4 + c / 4))
      ((pairup 2 ((chunks 2 32 i).map (fun d => d - d / 2))).map
      (fun c => c % 4 + c / 4)).tail, x < 2 ^ 4 := by
    have h8 : ∀ x ∈ (pairup 2 ((chunks 2 32 i).map (fun d => d - d / 2))).map
        (fun c => c % 4 + c / 4), x < 8 := by
      intro x hx
      have := hes_lt2 x hx
      omega
    have h8t : ∀ x ∈ ((pairup 2 ((chunks 2 32 i).map (fun d => d - d / 2))).map
        (fun c => c % 4 + c / 4)).tail, x < 8 :=
      fun x hx => h8 x (List.mem_of_mem_tail hx)
    exact addp_bound 8 8 _ _ h8 h8t (by norm_num) (by norm_num)
  have hss_len : (addp ((pairup 2 ((chunks 2 32 i).map (fun d => d - d / 2))).map
      (fun c => c % 4 + c / 4))
      ((pairup 2 ((chunks 2 32 i).map (fun d => d - d / 2))).map
      (fun c => c % 4 + c / 4)).tail).length = 16 := by
    rw [addp_length, List.length_tail, hes_len]
    omega
  have hss_dlt : dval 4 (addp ((pairup 2 ((chunks 2 32 i).map (fun d => d - d / 2))).map
      (fun c => c % 4 + c / 4))
      ((pairup 2 ((chunks 2 32 i).map (fun d => d - d / 2))).map
      (fun c => c % 4 + c / 4)).tail) < wsize := by
    have h := dval_lt 4 _ hss_lt
    rw [hss_len] at h
    exact h
  have hregroup : dval 8 (pairup 4 (addp
      ((pairup 2 ((chunks 2 32 i).map (fun d => d - d / 2))).map
        (fun c => c % 4 + c / 4))
      ((pairup 2 ((chunks 2 32 i).map (fun d => d - d / 2))).map
        (fun c => c % 4 + c / 4)).tail)) =
      dval 4 (addp ((pairup 2 ((chunks 2 32 i).map (fun d => d - d / 2))).map
        (fun c => c % 4 + c / 4))
      ((pairup 2 ((chunks 2 32 i).map (fun d => d - d / 2))).map
        (fun c => c % 4 + c / 4)).tail) :=
    dval_pairup 4 _
  have hgs_lt : ∀ x ∈ pairup 4 (addp
      ((pairup 2 ((chunks 2 32 i).map (fun d => d - d / 2))).map
        (fun c => c % 4 + c / 4))
      ((pairup 2 ((chunks 2 32 i).map (fun d => d - d / 2))).map
        (fun c => c % 4 + c / 4)).tail), x < 2 ^ 8 :=
    pairup_lt 4 _ hss_lt
  have hgs_len : (pairup 4 (addp
      ((pairup 2 ((chunks 2 32 i).map (fun d => d - d / 2))).map
        (fun c => c % 4 + c / 4))
      ((pairup 2 ((chunks 2 32 i).map (fun d => d - d / 2))).map
        (fun c => c % 4 + c / 4)).tail)).length = 8 := by
    rw [pairup_length, hss_len]
  have hmask4 : (0x0f0f0f0f0f0f0f0f : Nat) =
      dval 8 (List.replicate (pairup 4 (addp
        ((pairup 2 ((chunks 2 32 i).map (fun d => d - d / 2))).map
          (fun c => c % 4 + c / 4))
        ((pairup 2 ((chunks 2 32 i).map (fun d => d - d / 2))).map
          (fun c => c % 4 + c / 4)).tail)).length 15) := by
    rw [hgs_len]
    decide
  have hstep3a : dval 4 (addp
      ((pairup 2 ((chunks 2 32 i).map (fun d => d - d / 2))).map
        (fun c => c % 4 + c / 4))
      ((pairup 2 ((chunks 2 32 i).map (fun d => d - d / 2))).map
        (fun c => c % 4 + c / 4)).tail) &&& 0x0f0f0f0f0f0f0f0f =
      dval 8 ((pairup 4 (addp
        ((pairup 2 ((chunks 2 32 i).map (fun d => d - d / 2))).map
          (fun c => c % 4 + c / 4))
        ((pairup 2 ((chunks 2 32 i).map (fun d => d - d / 2))).map
          (fun c => c % 4 + c / 4)).tail)).map (fun g => g &&& 15)) := by
    conv_lhs => rw [← hregroup, hmask4]
    exact dval_masked0 8 15 _ (by norm_num) (by norm_num) hgs_lt
  have hm3 : ∀ g ∈ pairup 4 (addp
      ((pairup 2 ((chunks 2 32 i).map (fun d => d - d / 2))).map
        (fun c => c % 4 + c / 4))
      ((pairup 2 ((chunks 2 32 i).map (fun d => d - d / 2))).map
        (fun c => c % 4 + c / 4)).tail), g &&& 15 = g % 16 := by
    intro g _
    rw [show (15:Nat) = 2 ^ 4 - 1 from rfl, Nat.and_pow_two_sub_one_eq_mod]
  have hhs_lt : ∀ x ∈ (pairup 4 (addp
      ((pairup 2 ((chunks 2 32 i).map (fun d => d - d / 2))).map
        (fun c => c % 4 + c / 4))
      ((pairup 2 ((chunks 2 32 i).map (fun d => d - d / 2))).map
        (fun c => c % 4 + c / 4)).tail)).map (fun g => g % 16), x < 16 := by
    intro x hx
    rw [List.mem_map] at hx
    obtain ⟨g, _, rfl⟩ := hx
    exact Nat.mod_lt _ (by norm_num)
  have hhs_len : ((pairup 4 (addp
      ((pairup 2 ((chunks 2 32 i).map (fun d => d - d / 2))).map
        (fun c => c % 4 + c / 4))
      ((pairup 2 ((chunks 2 32 i).map (fun d => d - d / 2))).map
        (fun c => c % 4 + c / 4)).tail)).map (fun g => g % 16)).length = 8 := by
    rw [List.length_map, hgs_len]
  have hhs_sum : (((pairup 4 (addp
      ((pairup 2 ((chunks 2 32 i).map (fun d => d - d / 2))).map
        (fun c => c % 4 + c / 4))
      ((pairup 2 ((chunks 2 32 i).map (fun d => d - d / 2))).map
        (fun c => c % 4 + c / 4)).tail)).map (fun g => g % 16))).sum =
      ((pairup 2 ((chunks 2 32 i).map (fun d => d - d / 2))).map
        (fun c => c % 4 + c / 4)).sum :=
    adj_pairup_sum 4 _ hes_lt2
  -- assemble the pipeline
  simp only [util.PopCount]
  rw [hstep1, hstep2, hdrop, ← dval_addp, Nat.mod_eq_of_lt hss_dlt, hstep3a,
    List.map_congr_left hm3, ← hsum1, ← hes_sum, ← hhs_sum]
  exact popcount_final _ hhs_len hhs_lt

/-! ### Bounds for the flip and rotate transforms -/

theorem mod_wsize_lt (a : Nat) : a % wsize < wsize := Nat.mod_lt _ wsize_pos

theorem or_lt_wsize {a b : Nat} (ha : a < wsize) (hb : b < wsize) :
    a ||| b < wsize := by
  rw [wsize_eq] at *
  exact Nat.or_lt_two_pow ha hb

theorem xor_lt_wsize {a b : Nat} (ha : a < wsize) (hb : b < wsize) :
    a ^^^ b < wsize := by
  rw [wsize_eq] at *
  exact Nat.xor_lt_two_pow ha hb

theorem and_lt_wsize (a : Nat) {m : Nat} (hm : m < wsize) : a &&& m < wsize :=
  lt_of_le_of_lt Nat.and_le_right hm

theorem and_lt_wsize_left {m : Nat} (hm : m < wsize) (a : Nat) :
    m &&& a < wsize :=
  lt_of_le_of_lt Nat.and_le_left hm

theorem shiftRight_lt_wsize {a : Nat} (s : Nat) (ha : a < wsize) :
    a >>> s < wsize := by
  rw [Nat.shiftRight_eq_div_pow]
  exact lt_of_le_of_lt (Nat.div_le_self _ _) ha

theorem flipVertical_lt (i : Nat) : bitboard.FlipVertical i < wsize := by
  simp only [bitboard.FlipVertical]
  exact or_lt_wsize (shiftRight_lt_wsize _ (or_lt_wsize
    (and_lt_wsize _ (by decide)) (mod_wsize_lt _))) (mod_wsize_lt _)

theorem flipHorizontal_lt (i : Nat) : bitboard.FlipHorizontal i < wsize := by
  simp only [bitboard.FlipHorizontal]
  exact mod_wsize_lt _

theorem flipDiagonal_lt (i : Nat) (hi : i < wsize) :
    bitboard.FlipDiagonalA1H8 i < wsize := by
  simp only [bitboard.FlipDiagonalA1H8]
  have ht1 : ∀ a : Nat, (0x0f0f0f0f00000000 : Nat) &&& a < wsize :=
    fun a => and_lt_wsize_left (by decide) a
  have ht2 : ∀ a : Nat, (0x3333000033330000 : Nat) &&& a < wsize :=
    fun a => and_lt_wsize_left (by decide) a
  have ht3 : ∀ a : Nat, (0x5500550055005500 : Nat) &&& a < wsize :=
    fun a => and_lt_wsize_left (by decide) a
  exact xor_lt_wsize (xor_lt_wsize (xor_lt_wsize hi (xor_lt_wsize (ht1 _)
    (shiftRight_lt_wsize _ (ht1 _)))) (xor_lt_wsize (ht2 _)
    (shiftRight_lt_wsize _ (ht2 _)))) (xor_lt_wsize (ht3 _)
    (shiftRight_lt_wsize _ (ht3 _)))

/-! ### Per-bit characterisation of the flip transforms -/

/-- `FlipVertical` maps bit `8*y + x` to bit `8*(7-y) + x`:
for `j < 64`, bit `j` of the result is bit `8*(7 - j/8) + j%8` of the
argument. -/
theorem flipVertical_testBit (i : Nat) (j : Nat) (hj : j < 64) :
    (bitboard.FlipVertical i).testBit j =
      i.testBit (8 * (7 - j / 8) + j % 8) := by
  interval_cases j <;>
    · simp only [bitboard.FlipVertical, Nat.testBit_lor, Nat.testBit_land,
        Nat.testBit_xor, Nat.testBit_shiftLeft, Nat.testBit_shiftRight,
        testBit_mod_wsize]
      simp [Nat.testBit_to_div_mod]

/-- `FlipDiagonalA1H8` transposes the board: for `j < 64`, bit `j` of the
result is bit `8*(j%8) + j/8` of the argument. -/
theorem flipDiagonal_testBit (i : Nat) (j : Nat) (hj : j < 64) :
    (bitboard.FlipDiagonalA1H8 i).testBit j =
      i.testBit (8 * (j % 8) + j / 8) := by
  interval_cases j <;>
    · simp only [bitboard.FlipDiagonalA1H8, Nat.testBit_lor, Nat.testBit_land,
        Nat.testBit_xor, Nat.testBit_shiftLeft, Nat.testBit_shiftRight,
        testBit_mod_wsize]
      simp [Nat.testBit_to_div_mod, Bool.xor_comm, Bool.xor_left_comm,
        Bool.xor_assoc]

/-- Per-byte action of `FlipHorizontal` (bit reversal within a byte),
used to decompose the 64-bit transform. -/
def revByte (b : Nat) : Nat :=
  let b1 := ((b >>> 1) &&& 0x55) + 2 * (b &&& 0x55)
  let b2 := ((b1 >>> 2) &&& 0x33) + 4 * (b1 &&& 0x33)
  ((b2 >>> 4) &&& 0x0f) + 16 * (b2 &&& 0x0f)

/-- `FlipHorizontal` acts independently on the eight bytes of the word,
reversing the bits of each. -/
theorem flipHorizontal_bytes (i : Nat) (hi : i < wsize) :
    bitboard.FlipHorizontal i = dval 8 ((chunks 8 8 i).map revByte) := by
  have hlen : (chunks 8 8 i).length = 8 := chunks_length 8 8 i
  have hlt : ∀ d ∈ chunks 8 8 i, d < 2 ^ 8 := chunks_lt 8 8 i
  have hval : dval 8 (chunks 8 8 i) = i := by
    rw [dval_chunks]
    exact Nat.mod_eq_of_lt hi
  -- step 1
  have hmask1 : (0x5555555555555555 : Nat) =
      dval 8 (List.replicate (chunks 8 8 i).length 0x55) := by
    rw [hlen]
    decide
  have h1a : (i >>> 1) &&& 0x5555555555555555 =
      dval 8 ((chunks 8 8 i).map (fun b => (b >>> 1) &&& 0x55)) := by
    conv_lhs => rw [← hval, hmask1]
    exact dval_maskedShift 8 1 0x55 _ (by norm_num) (by norm_num) (by norm_num) hlt
  have h1b : i &&& 0x5555555555555555 =
      dval 8 ((chunks 8 8 i).map (fun b => b &&& 0x55)) := by
    conv_lhs => rw [← hval, hmask1]
    exact dval_masked0 8 0x55 _ (by norm_num) (by norm_num) hlt
  have h1c : 2 * (i &&& 0x5555555555555555) =
      dval 8 ((chunks 8 8 i).map (fun b => 2 * (b &&& 0x55))) := by
    rw [h1b, ← dval_map_mul, List.map_map]
    exact congrArg (dval 8) (List.map_congr_left (fun b _ => rfl))
  have hL1 : ((i >>> 1) &&& 0x5555555555555555) + 2 * (i &&& 0x5555555555555555) =
      dval 8 ((chunks 8 8 i).map (fun b => ((b >>> 1) &&& 0x55) + 2 * (b &&& 0x55))) := by
    rw [h1a, h1c, ← dval_addp]
    exact congrArg (dval 8) (addp_map_map _ _ _)
  have hb1 : ∀ x ∈ (chunks 8 8 i).map
      (fun b => ((b >>> 1) &&& 0x55) + 2 * (b &&& 0x55)), x < 2 ^ 8 := by
    intro x hx
    rw [List.mem_map] at hx
    obtain ⟨b, _, rfl⟩ := hx
    have e1 : (b >>> 1) &&& 0x55 ≤ 0x55 := Nat.and_le_right
    have e2 : b &&& 0x55 ≤ 0x55 := Nat.and_le_right
    norm_num at e1 e2 ⊢
    omega
  have hlen1 : ((chunks 8 8 i).map
      (fun b => ((b >>> 1) &&& 0x55) + 2 * (b &&& 0x55))).length = 8 := by
    rw [List.length_map, hlen]
  have hdlt1 : dval 8 ((chunks 8 8 i).map
      (fun b => ((b >>> 1) &&& 0x55) + 2 * (b &&& 0x55))) < wsize := by
    have h := dval_lt 8 _ hb1
    rw [hlen1] at h
    exact h
  have hstep1 : (((i >>> 1) &&& 0x5555555555555555) +
      2 * (i &&& 0x5555555555555555)) % wsize =
      dval 8 ((chunks 8 8 i).map (fun b => ((b >>> 1) &&& 0x55) + 2 * (b &&& 0x55))) := by
    rw [hL1]
    exact Nat.mod_eq_of_lt hdlt1
  -- step 2
  have hmask2 : (0x3333333333333333 : Nat) =
      dval 8 (List.replicate ((chunks 8 8 i).map
        (fun b => ((b >>> 1) &&& 0x55) + 2 * (b &&& 0x55))).length 0x33) := by
    rw [hlen1]
    decide
  have h2a : (dval 8 ((chunks 8 8 i).map
      (fun b => ((b >>> 1) &&& 0x55) + 2 * (b &&& 0x55))) >>> 2) &&&
      0x3333333333333333 =
      dval 8 (((chunks 8 8 i).map
        (fun b => ((b >>> 1) &&& 0x55) + 2 * (b &&& 0x55))).map
        (fun b => (b >>> 2) &&& 0x33)) := by
    conv_lhs => rw [hmask2]
    exact dval_maskedShift 8 2 0x33 _ (by norm_num) (by norm_num) (by norm_num) hb1
  have h2b : dval 8 ((chunks 8 8 i).map
      (fun b => ((b >>> 1) &&& 0x55) + 2 * (b &&& 0x55))) &&& 0x3333333333333333 =
      dval 8 (((chunks 8 8 i).map
        (fun b => ((b >>> 1) &&& 0x55) + 2 * (b &&& 0x55))).map
        (fun b => b &&& 0x33)) := by
    conv_lhs => rw [hmask2]
    exact dval_masked0 8 0x33 _ (by norm_num) (by norm_num) hb1
  have h2c : 4 * (dval 8 ((chunks 8 8 i).map
      (fun b => ((b >>> 1) &&& 0x55) + 2 * (b &&& 0x55))) &&& 0x3333333333333333) =
      dval 8 (((chunks 8 8 i).map
        (fun b => ((b >>> 1) &&& 0x55) + 2 * (b &&& 0x55))).map
        (fun b => 4 * (b &&& 0x33))) := by
    rw [h2b, ← dval_map_mul, List.map_map]
    exact congrArg (dval 8) (List.map_congr_left (fun b _ => rfl))
  have hL2 : ((dval 8 ((chunks 8 8 i).map
      (fun b => ((b >>> 1) &&& 0x55) + 2 * (b &&& 0x55))) >>> 2) &&&
      0x3333333333333333) + 4 * (dval 8 ((chunks 8 8 i).map
      (fun b => ((b >>> 1) &&& 0x55) + 2 * (b &&& 0x55))) &&& 0x3333333333333333) =
      dval 8 (((chunks 8 8 i).map
        (fun b => ((b >>> 1) &&& 0x55) + 2 * (b &&& 0x55))).map
        (fun b => ((b >>> 2) &&& 0x33) + 4 * (b &&& 0x33))) := by
    rw [h2a, h2c, ← dval_addp]
    exact congrArg (dval 8) (addp_map_map _ _ _)
  have hb2 : ∀ x ∈ ((chunks 8 8 i).map
      (fun b => ((b >>> 1) &&& 0x55) + 2 * (b &&& 0x55))).map
      (fun b => ((b >>> 2) &&& 0x33) + 4 * (b &&& 0x33)), x < 2 ^ 8 := by
    intro x hx
    rw [List.mem_map] at hx
    obtain ⟨b, _, rfl⟩ := hx
    have e1 : (b >>> 2) &&& 0x33 ≤ 0x33 := Nat.and_le_right
    have e2 : b &&& 0x33 ≤ 0x33 := Nat.and_le_right
    norm_num at e1 e2 ⊢
    omega
  have hlen2 : (((chunks 8 8 i).map
      (fun b => ((b >>> 1) &&& 0x55) + 2 * (b &&& 0x55))).map
      (fun b => ((b >>> 2) &&& 0x33) + 4 * (b &&& 0x33))).length = 8 := by
    rw [List.length_map, hlen1]
  have hdlt2 : dval 8 (((chunks 8 8 i).map
      (fun b => ((b >>> 1) &&& 0x55) + 2 * (b &&& 0x55))).map
      (fun b => ((b >>> 2) &&& 0x33) + 4 * (b &&& 0x33))) < wsize := by
    have h := dval_lt 8 _ hb2
    rw [hlen2] at h
    exact h
  have hstep2 : (((dval 8 ((chunks 8 8 i).map
      (fun b => ((b >>> 1) &&& 0x55) + 2 * (b &&& 0x55))) >>> 2) &&&
      0x3333333333333333) + 4 * (dval 8 ((chunks 8 8 i).map
      (fun b => ((b >>> 1) &&& 0x55) + 2 * (b &&& 0x55))) &&&
      0x3333333333333333)) % wsize =
      dval 8 (((chunks 8 8 i).map
        (fun b => ((b >>> 1) &&& 0x55) + 2 * (b &&& 0x55))).map
        (fun b => ((b >>> 2) &&& 0x33) + 4 * (b &&& 0x33))) := by
    rw [hL2]
    exact Nat.mod_eq_of_lt hdlt2
  -- step 3
  have hmask4 : (0x0f0f0f0f0f0f0f0f : Nat) =
      dval 8 (List.replicate (((chunks 8 8 i).map
        (fun b => ((b >>> 1) &&& 0x55) + 2 * (b &&& 0x55))).map
        (fun b => ((b >>> 2) &&& 0x33) + 4 * (b &&& 0x33))).length 0x0f) := by
    rw [hlen2]
    decide
  have h3a : (dval 8 (((chunks 8 8 i).map
      (fun b => ((b >>> 1) &&& 0x55) + 2 * (b &&& 0x55))).map
      (fun b => ((b >>> 2) &&& 0x33) + 4 * (b &&& 0x33))) >>> 4) &&&
      0x0f0f0f0f0f0f0f0f =
      dval 8 ((((chunks 8 8 i).map
        (fun b => ((b >>> 1) &&& 0x55) + 2 * (b &&& 0x55))).map
        (fun b => ((b >>> 2) &&& 0x33) + 4 * (b &&& 0x33))).map
        (fun b => (b >>> 4) &&& 0x0f)) := by
    conv_lhs => rw [hmask4]
    exact dval_maskedShift 8 4 0x0f _ (by norm_num) (by norm_num) (by norm_num) hb2
  have h3b : dval 8 (((chunks 8 8 i).map
      (fun b => ((b >>> 1) &&& 0x55) + 2 * (b &&& 0x55))).map
      (fun b => ((b >>> 2) &&& 0x33) + 4 * (b &&& 0x33))) &&& 0x0f0f0f0f0f0f0f0f =
      dval 8 ((((chunks 8 8 i).map
        (fun b => ((b >>> 1) &&& 0x55) + 2 * (b &&& 0x55))).map
        (fun b => ((b >>> 2) &&& 0x33) + 4 * (b &&& 0x33))).map
        (fun b => b &&& 0x0f)) := by
    conv_lhs => rw [hmask4]
    exact dval_masked0 8 0x0f _ (by norm_num) (by norm_num) hb2
  have h3c : 16 * (dval 8 (((chunks 8 8 i).map
      (fun b => ((b >>> 1) &&& 0x55) + 2 * (b &&& 0x55))).map
      (fun b => ((b >>> 2) &&& 0x33) + 4 * (b &&& 0x33))) &&& 0x0f0f0f0f0f0f0f0f) =
      dval 8 ((((chunks 8 8 i).map
        (fun b => ((b >>> 1) &&& 0x55) + 2 * (b &&& 0x55))).map
        (fun b => ((b >>> 2) &&& 0x33) + 4 * (b &&& 0x33))).map
        (fun b => 16 * (b &&& 0x0f))) := by
    rw [h3b, ← dval_map_mul, List.map_map]
    exact congrArg (dval 8) (List.map_congr_left (fun b _ => rfl))
  have hL3 : ((dval 8 (((chunks 8 8 i).map
      (fun b => ((b >>> 1) &&& 0x55) + 2 * (b &&& 0x55))).map
      (fun b => ((b >>> 2) &&& 0x33) + 4 * (b &&& 0x33))) >>> 4) &&&
      0x0f0f0f0f0f0f0f0f) + 16 * (dval 8 (((chunks 8 8 i).map
      (fun b => ((b >>> 1) &&& 0x55) + 2 * (b &&& 0x55))).map
      (fun b => ((b >>> 2) &&& 0x33) + 4 * (b &&& 0x33))) &&&
      0x0f0f0f0f0f0f0f0f) =
      dval 8 ((((chunks 8 8 i).map
        (fun b => ((b >>> 1) &&& 0x55) + 2 * (b &&& 0x55))).map
        (fun b => ((b >>> 2) &&& 0x33) + 4 * (b &&& 0x33))).map
        (fun b => ((b >>> 4) &&& 0x0f) + 16 * (b &&& 0x0f))) := by
    rw [h3a, h3c, ← dval_addp]
    exact congrArg (dval 8) (addp_map_map _ _ _)
  have hb3 : ∀ x ∈ (((chunks 8 8 i).map
      (fun b => ((b >>> 1) &&& 0x55) + 2 * (b &&& 0x55))).map
      (fun b => ((b >>> 2) &&& 0x33) + 4 * (b &&& 0x33))).map
      (fun b => ((b >>> 4) &&& 0x0f) + 16 * (b &&& 0x0f)), x < 2 ^ 8 := by
    intro x hx
    rw [List.mem_map] at hx
    obtain ⟨b, _, rfl⟩ := hx
    have e1 : (b >>> 4) &&& 0x0f ≤ 0x0f := Nat.and_le_right
    have e2 : b &&& 0x0f ≤ 0x0f := Nat.and_le_right
    norm_num at e1 e2 ⊢
    omega
  have hlen3 : ((((chunks 8 8 i).map
      (fun b => ((b >>> 1) &&& 0x55) + 2 * (b &&& 0x55))).map
      (fun b => ((b >>> 2) &&& 0x33) + 4 * (b &&& 0x33))).map
      (fun b => ((b >>> 4) &&& 0x0f) + 16 * (b &&& 0x0f))).length = 8 := by
    rw [List.length_map, hlen2]
  have hdlt3 : dval 8 ((((chunks 8 8 i).map
      (fun b => ((b >>> 1) &&& 0x55) + 2 * (b &&& 0x55))).map
      (fun b => ((b >>> 2) &&& 0x33) + 4 * (b &&& 0x33))).map
      (fun b => ((b >>> 4) &&& 0x0f) + 16 * (b &&& 0x0f))) < wsize := by
    have h := dval_lt 8 _ hb3
    rw [hlen3] at h
    exact h
  -- assemble and fuse the three per-byte maps
  simp only [bitboard.FlipHorizontal]
  rw [hstep1, hstep2, hL3, Nat.mod_eq_of_lt hdlt3, List.map_map, List.map_map]
  exact congrArg (dval 8) (List.map_congr_left (fun b _ => rfl))

/-- Bit `x` of the reversed byte is bit `7 - x` of the byte. -/
theorem revByte_testBit : ∀ b < 256, ∀ x < 8,
    (revByte b).testBit x = b.testBit (7 - x) := by decide

/-- `FlipHorizontal` maps bit `8*y + x` to bit `8*y + (7-x)`:
for `j < 64`, bit `j` of the result is bit `8*(j/8) + (7 - j%8)` of the
argument. -/
theorem flipHorizontal_testBit (i : Nat) (hi : i < wsize) (j : Nat)
    (hj : j < 64) :
    (bitboard.FlipHorizontal i).testBit j =
      i.testBit (8 * (j / 8) + (7 - j % 8)) := by
  have hlt : ∀ d ∈ chunks 8 8 i, d < 2 ^ 8 := chunks_lt 8 8 i
  have hval : dval 8 (chunks 8 8 i) = i := by
    rw [dval_chunks]
    exact Nat.mod_eq_of_lt hi
  have hmaplt : ∀ d ∈ (chunks 8 8 i).map revByte, d < 2 ^ 8 := by
    intro d hd
    rw [List.mem_map] at hd
    obtain ⟨b, hb, rfl⟩ := hd
    have hblt : b < 256 := hlt b hb
    have : ∀ b < 256, revByte b < 256 := by decide
    exact this b hblt
  rw [flipHorizontal_bytes i hi]
  conv_lhs => rw [show j = 8 * (j / 8) + j % 8 by omega]
  rw [dval_testBit 8 _ hmaplt (j / 8) (j % 8) (by omega)]
  rw [getD_map_zero revByte (by decide) _ (j / 8)]
  have hblt : (chunks 8 8 i).getD (j / 8) 0 < 2 ^ 8 := dval_getD_lt 8 _ hlt _
  rw [revByte_testBit _ hblt _ (by omega)]
  conv_rhs => rw [← hval]
  rw [dval_testBit 8 _ hlt (j / 8) (7 - j % 8) (by omega)]

/-! ### Bit semantics of the `util` primitives and `Union` -/

/-- `GetBit` in terms of `Nat.testBit`. -/
theorem getBit_eq_testBit (i : Nat) (p : Int) :
    util.GetBit i p = if i.testBit (goUint p) then 1 else 0 := by
  simp only [util.GetBit]
  rw [Nat.and_one_is_mod, Nat.testBit_to_div_mod, Nat.shiftRight_eq_div_pow]
  rcases Nat.mod_two_eq_zero_or_one (i / 2 ^ goUint p) with h | h <;> simp [h]

theorem getBit_zero_iff (i : Nat) (p : Int) :
    util.GetBit i p = 0 ↔ i.testBit (goUint p) = false := by
  rw [getBit_eq_testBit]
  by_cases h : i.testBit (goUint p) <;> simp [h]

theorem foldl_or_init (l : List Nat) : ∀ a : Nat,
    l.foldl (fun u v => u ||| v) a = a ||| l.foldl (fun u v => u ||| v) 0 := by
  induction l with
  | nil => intro a; simp
  | cons x l ih =>
    intro a
    simp only [List.foldl_cons]
    rw [ih (a ||| x), ih (0 ||| x), Nat.zero_or, Nat.lor_assoc]

theorem union_cons (a : Nat) (l : List Nat) :
    util.Union (a :: l) = a ||| util.Union l := by
  simp only [util.Union, List.foldl_cons]
  rw [foldl_or_init l (0 ||| a), Nat.zero_or]

theorem union_testBit (l : List Nat) (t : Nat) :
    (util.Union l).testBit t = l.any (fun m => m.testBit t) := by
  induction l with
  | nil => simp [util.Union, Nat.zero_testBit]
  | cons a l ih =>
    rw [union_cons, List.any_cons, Nat.testBit_lor, ih]

theorem union_lt_wsize (l : List Nat) (h : ∀ x ∈ l, x < wsize) :
    util.Union l < wsize := by
  induction l with
  | nil => exact wsize_pos
  | cons a l ih =>
    rw [union_cons]
    exact or_lt_wsize (h a (by simp)) (ih (fun x hx => h x (by simp [hx])))

theorem union_set_or (l : List Nat) : ∀ m : Nat, ∀ v : Nat, m < l.length →
    util.Union (l.set m ((l.getD m 0) ||| v)) = util.Union l ||| v := by
  induction l with
  | nil => intro m v hm; simp at hm
  | cons a l ih =>
    intro m v hm
    cases m with
    | zero =>
      show util.Union ((a ||| v) :: l) = _
      rw [union_cons, union_cons, Nat.lor_assoc, Nat.lor_comm v (util.Union l),
        ← Nat.lor_assoc]
    | succ m =>
      show util.Union (a :: l.set m ((l.getD m 0) ||| v)) = _
      rw [union_cons, ih m v (by simpa using hm), union_cons, Nat.lor_assoc]

/-- Masking with `c` is the identity on values whose set bits all lie
inside `c`. -/
theorem and_eq_self_of_bits_subset (x c : Nat)
    (h : ∀ t, c.testBit t = false → x.testBit t = false) : x &&& c = x := by
  apply Nat.eq_of_testBit_eq
  intro t
  rw [Nat.testBit_land]
  by_cases hc : c.testBit t
  · simp [hc]
  · rw [Bool.not_eq_true] at hc
    simp [hc, h t hc]

/-- Clearing bits through a mask `c` commutes with the union, provided
every list entry other than entry `m` has no set bit outside `c`. -/
theorem union_set_and (c : Nat) : ∀ (l : List Nat) (m : Nat), m < l.length →
    (∀ j, j ≠ m → ∀ t, c.testBit t = false → (l.getD j 0).testBit t = false) →
    util.Union (l.set m ((l.getD m 0) &&& c)) = util.Union l &&& c := by
  intro l
  induction l with
  | nil => intro m hm; simp at hm
  | cons a l ih =>
    intro m hm hcond
    have hrest : ∀ t, c.testBit t = false → ∀ x ∈ l, ∀ j : Nat,
        (l.getD j 0) = x → j + 1 ≠ m → x.testBit t = false := by
      intro t hct x _ j hj hjm
      have := hcond (j + 1) hjm t hct
      have hg : ((a :: l).getD (j + 1) 0) = l.getD j 0 := rfl
      rw [hg, hj] at this
      exact this
    cases m with
    | zero =>
      show util.Union ((a &&& c) :: l) = _
      rw [union_cons, union_cons, Nat.and_distrib_right]
      have hUl : util.Union l &&& c = util.Union l := by
        apply and_eq_self_of_bits_subset
        intro t hct
        rw [union_testBit]
        rw [List.any_eq_false]
        intro x hx
        obtain ⟨n, hn, rfl⟩ := List.getElem_of_mem hx
        have hg : l.getD n 0 = l[n] := List.getD_eq_getElem l 0 hn
        have := hcond (n + 1) (by omega) t hct
        have hg2 : ((a :: l).getD (n + 1) 0) = l.getD n 0 := rfl
        rw [hg2, hg] at this
        rw [Bool.not_eq_true]
        exact this
      rw [hUl]
    | succ m =>
      show util.Union (a :: l.set m ((l.getD m 0) &&& c)) = _
      have hcond2 : ∀ j, j ≠ m → ∀ t, c.testBit t = false →
          (l.getD j 0).testBit t = false := by
        intro j hj t hct
        have := hcond (j + 1) (by omega) t hct
        exact this
      rw [union_cons, ih m (by simpa using hm) hcond2, union_cons,
        Nat.and_distrib_right]
      have ha : a &&& c = a := by
        apply and_eq_self_of_bits_subset
        intro t hct
        exact hcond 0 (by omega) t hct
      rw [ha]

/-- Bit `t` of the uint64 complement mask used by `ClearBit` is clear
exactly when `t` is out of range or `t` is the cleared position. -/
theorem clear_mask_testBit (k t : Nat) :
    (((1 <<< k) % wsize) ^^^ (wsize - 1)).testBit t =
      (decide (t < 64) && !(decide (k = t) && decide (t < 64))) := by
  rw [Nat.testBit_xor, testBit_mod_wsize, Nat.one_shiftLeft, Nat.testBit_two_pow,
    wsize_eq, Nat.testBit_two_pow_sub_one]
  by_cases ht : t < 64 <;> by_cases hk : k = t <;> simp [ht, hk]

/-! ### Preservation of the occupancy invariant (claim C1, amended) -/

theorem place_preserves (b : bitboard.Bitboard) (m : Nat) (p : Int)
    (hm : m < b.Bitmaps.length)
    (hocc : b.Occupied = util.Union b.Bitmaps)
    (hbnd : ∀ x ∈ b.Bitmaps, x < wsize) :
    (bitboard.PlacePieceBit b m p).Occupied =
      util.Union (bitboard.PlacePieceBit b m p).Bitmaps ∧
    ∀ x ∈ (bitboard.PlacePieceBit b m p).Bitmaps, x < wsize := by
  constructor
  · show util.SetBit b.Occupied p =
      util.Union (b.Bitmaps.set m (util.SetBit (b.Bitmaps.getD m 0) p))
    simp only [util.SetBit]
    rw [union_set_or b.Bitmaps m _ hm, hocc]
  · intro x hx
    rcases List.mem_or_eq_of_mem_set hx with h | rfl
    · exact hbnd x h
    · exact or_lt_wsize
        (hbnd _ (by rw [List.getD_eq_getElem b.Bitmaps 0 hm]; exact List.getElem_mem hm))
        (mod_wsize_lt _)

theorem remove_preserves (b : bitboard.Bitboard) (m : Nat) (p : Int)
    (hm : m < b.Bitmaps.length)
    (hno : ∀ j, j ≠ m → util.GetBit (b.Bitmaps.getD j 0) p = 0)
    (hocc : b.Occupied = util.Union b.Bitmaps)
    (hbnd : ∀ x ∈ b.Bitmaps, x < wsize) :
    (bitboard.RemovePieceBit b m p).Occupied =
      util.Union (bitboard.RemovePieceBit b m p).Bitmaps ∧
    ∀ x ∈ (bitboard.RemovePieceBit b m p).Bitmaps, x < wsize := by
  constructor
  · show util.ClearBit b.Occupied p =
      util.Union (b.Bitmaps.set m (util.ClearBit (b.Bitmaps.getD m 0) p))
    simp only [util.ClearBit]
    rw [hocc]
    refine (union_set_and _ b.Bitmaps m hm ?_).symm
    intro j hj t hct
    rw [clear_mask_testBit] at hct
    have hjlt : (b.Bitmaps.getD j 0) < wsize := by
      by_cases hjl : j < b.Bitmaps.length
      · exact hbnd _ (by rw [List.getD_eq_getElem b.Bitmaps 0 hjl]; exact List.getElem_mem hjl)
      · rw [List.getD_eq_getElem?_getD, List.getElem?_eq_none (by omega)]
        exact wsize_pos
    by_cases ht : t < 64
    · -- in range: the mask is clear only at the removed position
      have hkt : goUint p = t := by
        by_contra hne
        simp [ht, hne] at hct
      have := (getBit_zero_iff _ p).mp (hno j hj)
      rw [hkt] at this
      exact this
    · exact testBit_ge_64 hjlt (by omega)
  · intro x hx
    rcases List.mem_or_eq_of_mem_set hx with h | rfl
    · exact hbnd x h
    · refine lt_of_le_of_lt Nat.and_le_left ?_
      exact hbnd _ (by rw [List.getD_eq_getElem b.Bitmaps 0 hm]; exact List.getElem_mem hm)

theorem safeStep_preserves {b b2 : bitboard.Bitboard}
    (hstep : bitboard.SafeStep b b2)
    (hocc : b.Occupied = util.Union b.Bitmaps)
    (hbnd : ∀ x ∈ b.Bitmaps, x < wsize) :
    b2.Occupied = util.Union b2.Bitmaps ∧ ∀ x ∈ b2.Bitmaps, x < wsize := by
  cases hstep with
  | place m p hm hp1 hp2 => exact place_preserves b m p hm hocc hbnd
  | remove m p hm hp1 hp2 hno => exact remove_preserves b m p hm hno hocc hbnd
  | move m p1 p2 hm hq1 hq2 hq3 hq4 hno =>
    have h1 := remove_preserves b m p1 hm hno hocc hbnd
    have hm2 : m < (bitboard.RemovePieceBit b m p1).Bitmaps.length := by
      show m < (b.Bitmaps.set m _).length
      rw [List.length_set]
      exact hm
    exact place_preserves _ m p2 hm2 h1.1 h1.2

/-! ### Rotation compositions -/

theorem rotate90_lt (i : Nat) : bitboard.Rotate90 i < wsize :=
  flipVertical_lt _

theorem rotate180_lt (i : Nat) : bitboard.Rotate180 i < wsize :=
  flipHorizontal_lt _

theorem rotate90_testBit (i : Nat) (j : Nat) (hj : j < 64) :
    (bitboard.Rotate90 i).testBit j = i.testBit (8 * (j % 8) + (7 - j / 8)) := by
  show (bitboard.FlipVertical (bitboard.FlipDiagonalA1H8 i)).testBit j = _
  rw [flipVertical_testBit _ j hj, flipDiagonal_testBit _ _ (by omega)]
  congr 1
  omega

theorem rotate180_testBit (i : Nat) (hi : i < wsize) (j : Nat) (hj : j < 64) :
    (bitboard.Rotate180 i).testBit j =
      i.testBit (8 * (7 - j / 8) + (7 - j % 8)) := by
  show (bitboard.FlipHorizontal (bitboard.FlipVertical i)).testBit j = _
  rw [flipHorizontal_testBit _ (flipVertical_lt _) j hj,
    flipVertical_testBit _ _ (by omega)]
  congr 1
  omega

/-- C4: for every 64-bit board `b`, `FlipVertical` and `FlipHorizontal`
are involutions, `Rotate180` applied twice is the identity, and
`Rotate90` applied four times returns `b` exactly. -/
theorem C4_flip_rotate_involutions (b : Nat) (hb : b < wsize) :
    bitboard.FlipVertical (bitboard.FlipVertical b) = b ∧
    bitboard.FlipHorizontal (bitboard.FlipHorizontal b) = b ∧
    bitboard.Rotate180 (bitboard.Rotate180 b) = b ∧
    bitboard.Rotate90 (bitboard.Rotate90 (bitboard.Rotate90
      (bitboard.Rotate90 b))) = b := by
  refine ⟨?_, ?_, ?_, ?_⟩
  · apply eq_of_testBit_eq_64 (flipVertical_lt _) hb
    intro j hj
    rw [flipVertical_testBit _ j hj, flipVertical_testBit _ _ (by omega)]
    congr 1
    omega
  · apply eq_of_testBit_eq_64 (flipHorizontal_lt _) hb
    intro j hj
    rw [flipHorizontal_testBit _ (flipHorizontal_lt _) j hj,
      flipHorizontal_testBit _ hb _ (by omega)]
    congr 1
    omega
  · apply eq_of_testBit_eq_64 (rotate180_lt _) hb
    intro j hj
    rw [rotate180_testBit _ (rotate180_lt _) j hj,
      rotate180_testBit _ hb _ (by omega)]
    congr 1
    omega
  · apply eq_of_testBit_eq_64 (rotate90_lt _) hb
    intro j hj
    rw [rotate90_testBit _ j hj, rotate90_testBit _ _ (by omega),
      rotate90_testBit _ _ (by omega), rotate90_testBit _ _ (by omega)]
    congr 1
    omega

/-- Witness for C4 at the concrete board `0x123456789ABCDEF0` (its
vertical flip evaluates to the byte reversal `0xF0DEBC9A78563412`). -/
theorem C4_witness :
    ((0x123456789ABCDEF0 : Nat) < wsize ∧
     bitboard.FlipVertical 0x123456789ABCDEF0 = 0xF0DEBC9A78563412) ∧
    (bitboard.FlipVertical (bitboard.FlipVertical 0x123456789ABCDEF0) =
        0x123456789ABCDEF0 ∧
     bitboard.FlipHorizontal (bitboard.FlipHorizontal 0x123456789ABCDEF0) =
        0x123456789ABCDEF0 ∧
     bitboard.Rotate180 (bitboard.Rotate180 0x123456789ABCDEF0) =
        0x123456789ABCDEF0 ∧
     bitboard.Rotate90 (bitboard.Rotate90 (bitboard.Rotate90
       (bitboard.Rotate90 0x123456789ABCDEF0))) = 0x123456789ABCDEF0) :=
  ⟨⟨by decide, by decide⟩, C4_flip_rotate_involutions 0x123456789ABCDEF0 (by decide)⟩

/-- C8: treating a 64-bit board as a flattened 8x8 grid with bit index
`8*y + x`, `FlipVertical` mirrors ranks (`y ↦ 7-y`) and `FlipHorizontal`
mirrors files within each rank (`x ↦ 7-x`). -/
theorem C8_flip_bit_mapping (b : Nat) (hb : b < wsize) (x y : Nat)
    (hx : x < 8) (hy : y < 8) :
    (bitboard.FlipVertical b).testBit (8 * y + x) =
      b.testBit (8 * (7 - y) + x) ∧
    (bitboard.FlipHorizontal b).testBit (8 * y + x) =
      b.testBit (8 * y + (7 - x)) := by
  constructor
  · rw [flipVertical_testBit _ _ (by omega)]
    congr 1
    omega
  · rw [flipHorizontal_testBit _ hb _ (by omega)]
    congr 1
    omega

/-- Witness for C8 at the concrete board `0x123456789ABCDEF0`, square
`x = 2`, `y = 5`. -/
theorem C8_witness :
    ((0x123456789ABCDEF0 : Nat) < wsize ∧ 2 < 8 ∧ 5 < 8) ∧
    ((bitboard.FlipVertical 0x123456789ABCDEF0).testBit (8 * 5 + 2) =
       (0x123456789ABCDEF0 : Nat).testBit (8 * (7 - 5) + 2) ∧
     (bitboard.FlipHorizontal 0x123456789ABCDEF0).testBit (8 * 5 + 2) =
       (0x123456789ABCDEF0 : Nat).testBit (8 * 5 + (7 - 2))) :=
  ⟨⟨by decide, by decide, by decide⟩,
   C8_flip_bit_mapping 0x123456789ABCDEF0 (by decide) 2 5 (by decide) (by decide)⟩

/-! ### Construction validation (claims C5 and C6) -/

/-- C5: evaluation of the code at the failing input.  The claim (and the
spec, and the error message in the code itself) require a construction
error whenever `ranks ≤ 0`, but `New` only checks `ranks < 0`: at
`ranks = 0, files = 8` the code returns no error.  (The complementary
direction of the claim does hold: the positive/in-budget case returns no
error, as the second conjunct illustrates at `8 × 8`.) -/
theorem C5_new_zero_ranks_no_error :
    (bitboard.New 0 8).2 = none ∧ (bitboard.New 8 8).2 = none := by
  constructor <;> rfl

/-- C6 counterexample: `New 9 9` surfaces the construction validation
error, but a `Bitboard` carrying the requested dimensions is returned
alongside it — the construction is not fail-closed as the claim states. -/
theorem C6_counterexample :
    (bitboard.New 9 9).2 ≠ none ∧ (bitboard.New 9 9).1.Ranks = 9 ∧
      (bitboard.New 9 9).1.Files = 9 := by
  refine ⟨?_, rfl, rfl⟩
  decide

/-- C6 as amended: `New 9 9` surfaces the construction validation error
(the size error), and the `Bitboard` returned alongside it is exactly the
zero-bitmap aggregate carrying the requested dimensions — fail-open, with
empty bitmaps (so no bitmap exceeds 64 usable bits). -/
theorem C6_amended_new_fail_open :
    (bitboard.New 9 9).2 = some bitboard.NewError.sizeError ∧
    (bitboard.New 9 9).1 =
      { Bitmaps := [], Symbols := [], Occupied := 0, Ranks := 9, Files := 9 } :=
  ⟨rfl, rfl⟩

/-! ### Out-of-range bit positions (claim C9) -/

/-- C9: for every 64-bit board value and every Go-int position `p`
outside `[0, 64)`, the shift count `uint(p)` is at least 64, so the Go
shift produces a zero mask (or its all-ones complement): `SetBit`,
`ClearBit` and `ToggleBit` leave the board unchanged and `GetBit`
returns 0. -/
theorem C9_out_of_range_safe (i : Nat) (hi : i < wsize) (p : Int)
    (hlo : -(2:Int) ^ 63 ≤ p) (hhi : p < 2 ^ 63) (hout : p < 0 ∨ 64 ≤ p) :
    util.SetBit i p = i ∧ util.ClearBit i p = i ∧ util.ToggleBit i p = i ∧
      util.GetBit i p = 0 := by
  have hk : 64 ≤ goUint p := by
    simp only [goUint, wsize_eq]
    push_cast
    omega
  have hmask : (1 <<< goUint p) % wsize = 0 := by
    rw [Nat.one_shiftLeft, wsize_eq]
    exact Nat.mod_eq_zero_of_dvd (pow_dvd_pow 2 hk)
  refine ⟨?_, ?_, ?_, ?_⟩
  · simp only [util.SetBit, hmask, Nat.or_zero]
  · simp only [util.ClearBit, hmask, Nat.zero_xor]
    rw [wsize_eq] at hi ⊢
    rw [Nat.and_pow_two_sub_one_eq_mod]
    exact Nat.mod_eq_of_lt hi
  · simp only [util.ToggleBit, hmask, Nat.xor_zero]
  · simp only [util.GetBit]
    rw [Nat.shiftRight_eq_div_pow, Nat.div_eq_of_lt, Nat.zero_and]
    exact lt_of_lt_of_le hi (by rw [wsize_eq]; exact Nat.pow_le_pow_right (by norm_num) hk)

/-- Witness for C9 at `i = 5`, `p = 64`. -/
theorem C9_witness :
    ((5 : Nat) < wsize ∧ -(2:Int) ^ 63 ≤ 64 ∧ (64 : Int) < 2 ^ 63 ∧
      ((64 : Int) < 0 ∨ 64 ≤ (64 : Int))) ∧
    (util.SetBit 5 64 = 5 ∧ util.ClearBit 5 64 = 5 ∧
      util.ToggleBit 5 64 = 5 ∧ util.GetBit 5 64 = 0) :=
  ⟨⟨by decide, by decide, by decide, Or.inr (by decide)⟩,
   C9_out_of_range_safe 5 (by decide) 64 (by decide) (by decide)
     (Or.inr (by decide))⟩

/-! ### Silent error handling in `AlgebraicToCartesian` (claim C10) -/

/-- C10: for every two-byte input, `AlgebraicToCartesian` never signals
an error (it is a total function into a pair): a first byte outside
`a..h` leaves `x = 0`, a second byte that is not a decimal digit makes
the discarded `Atoi` return 0 so the result is `y = -1`, and the `files`
argument has no effect on the result. -/
theorem C10_algebraicToCartesian_silent (p0 p1 : Nat) (files : Int) :
    (p0 ∉ util.algSymbols → (util.AlgebraicToCartesian p0 p1 files).1 = 0) ∧
    ((p1 < 48 ∨ 57 < p1) → (util.AlgebraicToCartesian p0 p1 files).2 = -1) ∧
    (∀ files2 : Int, util.AlgebraicToCartesian p0 p1 files =
      util.AlgebraicToCartesian p0 p1 files2) := by
  have henum : util.algSymbols.enum =
      [(0, 97), (1, 98), (2, 99), (3, 100), (4, 101), (5, 102), (6, 103),
        (7, 104)] := rfl
  refine ⟨?_, ?_, ?_⟩
  · intro hp
    simp only [util.algSymbols, List.mem_cons, List.not_mem_nil, or_false,
      not_or] at hp
    obtain ⟨h97, h98, h99, h100, h101, h102, h103, h104⟩ := hp
    show (util.algSymbols.enum).foldl
      (fun acc iv => if p0 = iv.2 then (iv.1 : Int) else acc) 0 = 0
    rw [henum]
    simp only [List.foldl_cons, List.foldl_nil]
    simp [h97, h98, h99, h100, h101, h102, h103, h104]
  · intro hp
    show (if 48 ≤ p1 ∧ p1 ≤ 57 then (p1 : Int) - 48 else 0) - 1 = -1
    rw [if_neg (by omega)]
    norm_num
  · intro files2
    rfl

/-- Witness for C10 at bytes `p0 = 122` (ASCII z) and `p1 = 63`
(ASCII question mark), `files = 8` against `files = 3`. -/
theorem C10_witness :
    ((122 : Nat) ∉ util.algSymbols ∧ ((63 : Nat) < 48 ∨ 57 < (63 : Nat))) ∧
    ((util.AlgebraicToCartesian 122 63 8).1 = 0 ∧
     (util.AlgebraicToCartesian 122 63 8).2 = -1 ∧
     util.AlgebraicToCartesian 122 63 8 = util.AlgebraicToCartesian 122 63 3) :=
  ⟨⟨by decide, Or.inr (by decide)⟩,
   ⟨(C10_algebraicToCartesian_silent 122 63 8).1 (by decide),
    (C10_algebraicToCartesian_silent 122 63 8).2.1 (Or.inr (by decide)),
    (C10_algebraicToCartesian_silent 122 63 8).2.2 3⟩⟩

/-! ### `GetBitmapIndex` (claim C7) -/

/-- C7: for a `Bitboard` whose `Occupied` field equals the union of its
category bitmaps, and any in-range position (a Go int, hence `< 2^63`),
`GetBitmapIndex` returns the smallest index whose bitmap holds the bit
when one exists, and the sentinel `-1` when the square is empty. -/
theorem C7_getBitmapIndex_first (b : bitboard.Bitboard) (p : Int)
    (hocc : b.Occupied = util.Union b.Bitmaps)
    (hp0 : 0 ≤ p) (hplt : p < b.Ranks * b.Files) (hp63 : p < 2 ^ 63) :
    (bitboard.GetBitmapIndex b p = -1 ∧
      ∀ m ∈ b.Bitmaps, util.GetBit m p = 0) ∨
    (∃ k : Nat, k < b.Bitmaps.length ∧
      bitboard.GetBitmapIndex b p = (k : Int) ∧
      util.GetBit (b.Bitmaps.getD k 0) p ≠ 0 ∧
      ∀ j < k, util.GetBit (b.Bitmaps.getD j 0) p = 0) := by
  by_cases hz : util.GetBit b.Occupied p = 0
  · left
    constructor
    · simp only [bitboard.GetBitmapIndex, if_pos hz]
    · intro m hm
      rw [getBit_zero_iff] at hz ⊢
      rw [hocc, union_testBit] at hz
      rw [List.any_eq_false] at hz
      have := hz m hm
      rw [Bool.not_eq_true] at this
      exact this
  · right
    have hbit : b.Occupied.testBit (goUint p) = true := by
      by_contra hcon
      rw [Bool.not_eq_true] at hcon
      exact hz ((getBit_zero_iff _ _).mpr hcon)
    have hex : ∃ m ∈ b.Bitmaps, m.testBit (goUint p) = true := by
      rw [hocc, union_testBit, List.any_eq_true] at hbit
      exact hbit
    have hfind : ∃ k, b.Bitmaps.findIdx? (fun m => util.GetBit m p != 0) = some k := by
      rcases hsome : b.Bitmaps.findIdx? (fun m => util.GetBit m p != 0) with _ | k
      · exfalso
        rw [List.findIdx?_eq_none_iff] at hsome
        obtain ⟨m, hm, hmt⟩ := hex
        have := hsome m hm
        rw [bne_eq_false_iff_eq] at this
        rw [(getBit_zero_iff _ _).mp this] at hmt
        exact Bool.false_ne_true hmt
      · exact ⟨k, rfl⟩
    obtain ⟨k, hk⟩ := hfind
    have hspec := (List.findIdx?_eq_some_iff_getElem).mp hk
    obtain ⟨hklt, hkp, hjp⟩ := hspec
    refine ⟨k, hklt, ?_, ?_, ?_⟩
    · simp only [bitboard.GetBitmapIndex, if_neg hz, hk]
    · rw [List.getD_eq_getElem b.Bitmaps 0 hklt]
      intro hcon
      rw [bne_eq_false_iff_eq.mpr hcon] at hkp
      exact Bool.false_ne_true hkp
    · intro j hj
      have := hjp j (by omega)
      have hjlt : j < b.Bitmaps.length := by omega
      rw [List.getD_eq_getElem b.Bitmaps 0 hjlt]
      by_contra hcon
      apply this
      simp only [bne_iff_ne, ne_eq]
      exact hcon
  
/-- Witness for C7 on the chess preset at position 0 (occupied by the
white rooks, category index 0). -/
theorem C7_witness :
    (bitboard.NewChessBoard.Occupied = util.Union bitboard.NewChessBoard.Bitmaps ∧
      (0 : Int) ≤ 0 ∧ (0 : Int) < bitboard.NewChessBoard.Ranks * bitboard.NewChessBoard.Files ∧
      (0 : Int) < 2 ^ 63) ∧
    ((bitboard.GetBitmapIndex bitboard.NewChessBoard 0 = -1 ∧
        ∀ m ∈ bitboard.NewChessBoard.Bitmaps, util.GetBit m 0 = 0) ∨
     (∃ k : Nat, k < bitboard.NewChessBoard.Bitmaps.length ∧
        bitboard.GetBitmapIndex bitboard.NewChessBoard 0 = (k : Int) ∧
        util.GetBit (bitboard.NewChessBoard.Bitmaps.getD k 0) 0 ≠ 0 ∧
        ∀ j < k, util.GetBit (bitboard.NewChessBoard.Bitmaps.getD j 0) 0 = 0)) :=
  ⟨⟨rfl, by decide, by decide, by decide⟩,
   C7_getBitmapIndex_first bitboard.NewChessBoard 0 rfl (by decide) (by decide)
     (by decide)⟩

/-! ### `PopCount` (claim C3) -/

/-- C3: for every 64-bit input, `PopCount` equals the naive per-bit
reference count — the number of indices `p` in `[0, 64)` whose bit is set. -/
theorem C3_popCount_eq_naive (i : Nat) (hi : i < wsize) :
    util.PopCount i = (List.range 64).countP (fun p => i.testBit p) := by
  rw [countP_range_testBit]
  exact PopCount_eq_bitsum i hi

/-- Witness for C3 at the all-ones word (count 64) and at 0 (count 0). -/
theorem C3_witness :
    ((0xFFFFFFFFFFFFFFFF : Nat) < wsize) ∧
    (util.PopCount 0xFFFFFFFFFFFFFFFF =
      (List.range 64).countP (fun p => (0xFFFFFFFFFFFFFFFF : Nat).testBit p)) ∧
    util.PopCount 0xFFFFFFFFFFFFFFFF = 64 ∧ util.PopCount 0 = 0 :=
  ⟨by decide, C3_popCount_eq_naive 0xFFFFFFFFFFFFFFFF (by decide),
   by decide, by decide⟩

/-! ### The occupancy-union invariant (claim C1) -/

/-- C1 counterexample: the claim as stated fails.  On the chess preset,
the single call `RemovePieceBit 1 0` — category 1 (the white knights) is
in range (`1 < 12`) and position 0 is in range (`0 ≤ 0 < 64`) — clears
bit 0 of `Occupied` even though category 0 (the white rooks) still holds
that square, so afterwards `Occupied` differs from the union of the
category bitmaps. -/
theorem C1_counterexample :
    (bitboard.RemovePieceBit bitboard.NewChessBoard 1 0).Occupied ≠
      util.Union (bitboard.RemovePieceBit bitboard.NewChessBoard 1 0).Bitmaps := by
  decide

/-- C1 as amended: for every preset board and every finite sequence of
`PlacePieceBit`, `RemovePieceBit` and `MovePieceBit` calls at in-range
categories and positions in which every removal (including the removal
half of a move) targets a square that no category other than the named
one occupies, the `Occupied` field equals the bitwise union of all
category bitmaps before and after every operation. -/
theorem C1_amended_invariant (b0 b : bitboard.Bitboard)
    (h0 : b0 = bitboard.NewChessBoard ∨ b0 = bitboard.NewCheckersBoard ∨
      b0 = bitboard.NewOthelloBoard ∨ b0 = bitboard.NewReversiBoard ∨
      b0 = bitboard.NewTicTacToeBoard ∨ b0 = bitboard.NewConnectFourBoard)
    (hreach : Relation.ReflTransGen bitboard.SafeStep b0 b) :
    b.Occupied = util.Union b.Bitmaps := by
  suffices h : b.Occupied = util.Union b.Bitmaps ∧ ∀ x ∈ b.Bitmaps, x < wsize
    from h.1
  induction hreach with
  | refl =>
    rcases h0 with rfl | rfl | rfl | rfl | rfl | rfl <;> exact ⟨rfl, by decide⟩
  | tail hsteps hstep ih => exact safeStep_preserves hstep ih.1 ih.2

/-- Witness for C1 on the chess preset after one in-range placement
(`PlacePieceBit 0 16`), with the resulting `Occupied` evaluated. -/
theorem C1_witness :
    (bitboard.PlacePieceBit bitboard.NewChessBoard 0 16).Occupied =
      util.Union (bitboard.PlacePieceBit bitboard.NewChessBoard 0 16).Bitmaps ∧
    (bitboard.PlacePieceBit bitboard.NewChessBoard 0 16).Occupied =
      0xffff00000001ffff :=
  ⟨C1_amended_invariant bitboard.NewChessBoard _ (Or.inl rfl)
     (Relation.ReflTransGen.single
       (bitboard.SafeStep.place bitboard.NewChessBoard 0 16 (by decide)
         (by decide) (by decide))),
   by decide⟩

/-! ### Coordinate round-trips (claim C2) -/

/-- C2 counterexample: the claim as stated fails.  At `files = 3`,
`(x, y) = (0, 9)` — which satisfies the claimed validity condition
`0 ≤ x < files`, `0 ≤ y`, `y*files + x = 27 < 64` — the algebraic string
is "a10", but `AlgebraicToCartesian` reads only the first digit byte, so
the round trip returns `(0, 0)` instead of `(0, 9)`. -/
theorem C2_counterexample :
    ((0:Int) ≤ 0 ∧ (0:Int) < 3 ∧ (0:Int) ≤ 9 ∧
      util.CartesianToBit 0 9 3 < 64) ∧
    util.AlgebraicToCartesian
      ((util.CartesianToAlgebraic 0 9 3).getD 0 0)
      ((util.CartesianToAlgebraic 0 9 3).getD 1 0) 3 = (0, 0) ∧
    ¬(util.AlgebraicToCartesian
      ((util.CartesianToAlgebraic 0 9 3).getD 0 0)
      ((util.CartesianToAlgebraic 0 9 3).getD 1 0) 3 = ((0:Int), (9:Int))) := by
  decide

/-- C2 as amended: for `files ∈ {3,7,8}` and every valid pair
(`0 ≤ x < files`, `0 ≤ y`, `y*files + x < 64`), the bit round trip
`BitToCartesian (CartesianToBit x y files) files = (x, y)` holds, and the
algebraic round trip holds additionally whenever `y ≤ 8` (so that the
rank number `y+1` is a single decimal digit). -/
theorem C2_amended_roundtrips (files : Int)
    (hf : files = 3 ∨ files = 7 ∨ files = 8) (x y : Int)
    (hx0 : 0 ≤ x) (hxf : x < files) (hy0 : 0 ≤ y)
    (hbit : util.CartesianToBit x y files < 64) :
    util.BitToCartesian (util.CartesianToBit x y files) files = (x, y) ∧
    (y ≤ 8 →
      util.AlgebraicToCartesian
        ((util.CartesianToAlgebraic x y files).getD 0 0)
        ((util.CartesianToAlgebraic x y files).getD 1 0) files = (x, y)) := by
  have hbit2 : y * files + x < 64 := hbit
  rcases hf with rfl | rfl | rfl
  · have hyub : y ≤ 21 := by omega
    interval_cases x <;> interval_cases y <;> decide
  · have hyub : y ≤ 9 := by omega
    interval_cases x <;> interval_cases y <;> decide
  · have hyub : y ≤ 7 := by omega
    interval_cases x <;> interval_cases y <;> decide

/-- Witness for C2 at `files = 8`, `(x, y) = (4, 3)` (square e4). -/
theorem C2_witness :
    util.BitToCartesian (util.CartesianToBit 4 3 8) 8 = (4, 3) ∧
    util.AlgebraicToCartesian
      ((util.CartesianToAlgebraic 4 3 8).getD 0 0)
      ((util.CartesianToAlgebraic 4 3 8).getD 1 0) 8 = (4, 3) := by
  have h := C2_amended_roundtrips 8 (Or.inr (Or.inr rfl)) 4 3 (by decide)
    (by decide) (by decide) (by decide)
  exact ⟨h.1, h.2 (by decide)⟩

end BB
